import Mathlib

/-!
Verification of the sheetFmt column-mapping and rewrite engine.

This file gives a shallow embedding, in Lean 4, of the core logic of the
sheetFmt repository (Go): header-row detection, header cleaning, numeric
cell typing, the column-formula row substitution, the mapping store
persistence, the interactive mapping-session state machine, and the
per-sheet rewrite pipeline with its quarantine-on-error behaviour.

Conventions used throughout:
* Go strings are modelled as Lean `String`/`List Char` (valid Unicode).
* Go maps are modelled as association lists; iteration order of a Go map
  is unspecified, so all proved statements about map contents are
  order-insensitive.
* Cell addresses `<columnLetter><row>` are modelled as a pair
  `(0-based column index, 1-based row number)`; the Go code converts
  between the two forms with `indexToColumn`, which is injective.
* File-system side effects (MkdirAll, WriteFile) are modelled as fields
  of a result record; a file's byte content is opaque (`List Nat`).
-/

namespace SheetFmt

/-! ## Go standard-library string primitives

`goIsSpace` models Go `unicode.IsSpace`: the Latin-1 white space
characters plus the Unicode White_Space property ranges. -/

def goIsSpace (c : Char) : Bool :=
  let n := c.toNat
  (decide (9 ≤ n) && decide (n ≤ 13)) || n == 32 || n == 133 || n == 160 ||
  n == 0x1680 || (decide (0x2000 ≤ n) && decide (n ≤ 0x200A)) ||
  n == 0x2028 || n == 0x2029 || n == 0x202F || n == 0x205F || n == 0x3000

/-- Model of Go `strings.TrimSpace` on a rune list: drop leading and
trailing `unicode.IsSpace` runes. -/
def trimSpace (cs : List Char) : List Char :=
  ((cs.dropWhile goIsSpace).reverse.dropWhile goIsSpace).reverse

/-- Model of `strings.TrimSpace(s) == ""`: the cell text is blank. -/
def isBlank (s : String) : Bool :=
  (trimSpace s.data).isEmpty

/-- Model of Go `strings.HasPrefix` on rune lists. -/
def startsWithL : List Char → List Char → Bool
  | _, [] => true
  | [], _ :: _ => false
  | c :: cs, d :: ds => c == d && startsWithL cs ds

/-- Model of Go `strings.ReplaceAll(s, old, new)` for a non-empty `old`:
scan left to right, replacing non-overlapping occurrences.  (The Go
behaviour for an empty `old`, inserting `new` between runes, is never
exercised by this repository and is modelled as the identity.) -/
def replaceAll (s old new : List Char) : List Char :=
  match s with
  | [] => []
  | c :: cs =>
    if h : old ≠ [] ∧ startsWithL (c :: cs) old = true then
      new ++ replaceAll ((c :: cs).drop old.length) old new
    else
      c :: replaceAll cs old new
termination_by s.length
decreasing_by
  · simp only [List.length_drop]
    have : old.length ≠ 0 := by
      intro hlen
      exact h.1 (List.eq_nil_of_length_eq_zero hlen)
    simp only [List.length_cons]
    omega
  · simp only [List.length_cons]
    omega

/-! ## Column-formula row substitution (format.go / config.go,
`adjustFormulaForRow`)

The Go source is literally
`strings.ReplaceAll(formula, "n", fmt.Sprintf("%d", targetRow))`. -/

def adjustFormulaForRow (formula : String) (targetRow : Nat) : String :=
  String.mk (replaceAll formula.data ['n'] (Nat.toDigits 10 targetRow))

/-! ## Header-row detection (editor.go, `DetectHeaderRow`)

`rowRightmost` mirrors the inner loop of `DetectHeaderRow`: scanning a
single row from its right end, it yields the 1-based position of the
rightmost non-blank cell, or `0` if the whole row is blank. -/

def rowRightmost : List String → Nat
  | [] => 0
  | c :: rest =>
    let r := rowRightmost rest
    if r ≠ 0 then r + 1
    else if isBlank c then 0 else 1

/-- The `rightmostCol` accumulation of `DetectHeaderRow`: the maximum of
`rowRightmost` over all rows (Go updates the maximum row by row). -/
def rightmostColFold (rows : List (List String)) : Nat :=
  rows.foldl (fun a r => max a (rowRightmost r)) 0

/-- Shallow embedding of `Editor.DetectHeaderRow` (editor.go): find the
rightmost column with data across all rows, then return the 1-based
index of the first row with non-blank text in that column; default 1. -/
def detectHeaderRow (rows : List (List String)) : Nat :=
  if rows.isEmpty then 1
  else
    let rc := rightmostColFold rows
    if rc = 0 then 1
    else
      match rows.findIdx?
          (fun row => decide (rc ≤ row.length) && !(isBlank (row.getD (rc - 1) ""))) with
      | some i => i + 1
      | none => 1

/-! Spec-side restatement of the header-detection heuristic, written from
the specification's words: "scan every row to find the single rightmost
column index that contains non-blank text anywhere in the sheet; then
scan rows top-to-bottom and return the index of the first row that has
non-blank text specifically in that rightmost column", defaulting to 1
for an empty sheet. -/

/-- Column `j` (0-based) contains non-blank text anywhere in the sheet. -/
def colNonblank (rows : List (List String)) (j : Nat) : Bool :=
  rows.any (fun row => !(isBlank (row.getD j "")))

def maxRowLen (rows : List (List String)) : Nat :=
  rows.foldl (fun a r => max a r.length) 0

/-- The single rightmost column index (1-based; 0 when the sheet has no
non-blank cell) that contains non-blank text anywhere in the sheet. -/
def lastNonblankCol (rows : List (List String)) : Nat :=
  (List.range (maxRowLen rows)).foldl
    (fun acc j => if colNonblank rows j then j + 1 else acc) 0

/-- Header-row detection as worded by the specification. -/
def detectHeaderRowSpec (rows : List (List String)) : Nat :=
  if rows.isEmpty then 1
  else
    let rc := lastNonblankCol rows
    if rc = 0 then 1
    else
      match rows.findIdx?
          (fun row => decide (rc ≤ row.length) && !(isBlank (row.getD (rc - 1) ""))) with
      | some i => i + 1
      | none => 1

/-! ## Mapping records (mapping/ai.go, `ColumnMapping` / `MappingConfig`) -/

structure ColumnMapping where
  scanned_column : String
  target_column : String
  is_ignored : Bool
deriving DecidableEq

structure MappingConfig where
  mappings : List ColumnMapping
deriving DecidableEq

/-! ## Association-list model of Go maps

The TUI session state holds two Go maps (`mappings`, `ignored`) and the
AI-suggestion overlay.  Go map iteration order is unspecified, so every
statement proved about them below is order-insensitive; association-list
insertion keeps keys unique, matching Go map assignment. -/

def lookupA (l : List (String × String)) (k : String) : Option String :=
  match l with
  | [] => none
  | (k', v) :: rest => if k' = k then some v else lookupA rest k

/-- Model of Go `delete(m, k)` on the association list. -/
def eraseKeyA : List (String × String) → String → List (String × String)
  | [], _ => []
  | (k', v) :: rest, k =>
    if k' = k then eraseKeyA rest k else (k', v) :: eraseKeyA rest k

/-- Model of Go `m[k] = v` (assignment keeps keys unique). -/
def insertA (l : List (String × String)) (k v : String) : List (String × String) :=
  eraseKeyA l k ++ [(k, v)]

/-- Model of `delete` on a Go map used as a set. -/
def eraseS : List String → String → List String
  | [], _ => []
  | x :: rest, k => if x = k then eraseS rest k else x :: eraseS rest k

/-- Model of `m[k] = true` on a Go map used as a set. -/
def insertS (l : List String) (k : String) : List String :=
  eraseS l k ++ [k]

/-! ## The interactive mapping session (tui.go `model` and its updates) -/

/-- Selection state of the mapping TUI that the claims are about:
confirmed mappings (scanned → target), ignore flags, and unconfirmed AI
suggestions (scanned → suggested target). -/
structure Session where
  mappings : List (String × String)
  ignored : List String
  suggestions : List (String × String)
deriving DecidableEq

/-- `initialModel`: all three maps start empty. -/
def emptySession : Session :=
  { mappings := [], ignored := [], suggestions := [] }

/-- `updateSelectTarget`, key `enter`: confirm a mapping for the current
scanned column — store the mapping, clear any ignore flag on the column,
and discard any AI suggestion for it. -/
def confirmMapping (s : Session) (col target : String) : Session :=
  { mappings := insertA s.mappings col target
    ignored := eraseS s.ignored col
    suggestions := eraseKeyA s.suggestions col }

/-- `updateSelectScanned`, key `i`: toggle the ignore flag of the current
scanned column.  Both branches delete any mapping of the column; turning
the flag on also discards any AI suggestion for the column. -/
def toggleIgnore (s : Session) (col : String) : Session :=
  if s.ignored.contains col then
    { mappings := eraseKeyA s.mappings col
      ignored := eraseS s.ignored col
      suggestions := s.suggestions }
  else
    { mappings := eraseKeyA s.mappings col
      ignored := insertS s.ignored col
      suggestions := eraseKeyA s.suggestions col }

/-- `Update` on `aiMappingsMsg`: add received AI suggestions, but only
for columns that are neither mapped nor ignored. -/
def applySuggestions (s : Session) (msgs : List (String × String)) : Session :=
  { s with suggestions :=
      msgs.foldl (fun acc m =>
        if (lookupA s.mappings m.1).isSome || s.ignored.contains m.1 then acc
        else insertA acc m.1 m.2) s.suggestions }

/-- `RunMappingTUI` auto-map loop: for each scanned column that is not
already mapped and not ignored, map it to itself when its (already
cleaned) name occurs verbatim among the target columns. -/
def autoMapPass (s : Session) (scannedColumns targetColumns : List String) : Session :=
  { s with mappings :=
      scannedColumns.foldl (fun acc col =>
        if (lookupA acc col).isSome then acc
        else if s.ignored.contains col then acc
        else if targetColumns.contains col then insertA acc col col
        else acc) s.mappings }

/-- `RunMappingTUI` save block (reached only when the session ended in
the `Confirming` state and the operator accepted): persist one record
per confirmed mapping and one per ignored column.  The AI-suggestion
overlay is never read here. -/
def buildSavedConfig (s : Session) : MappingConfig :=
  { mappings :=
      s.mappings.map
        (fun p => { scanned_column := p.1, target_column := p.2, is_ignored := false }) ++
      s.ignored.map
        (fun c => { scanned_column := c, target_column := "", is_ignored := true }) }

/-- One operator/system event of the mapping session. -/
inductive SessionStep : Session → Session → Prop
  | confirm (s : Session) (col target : String) : SessionStep s (confirmMapping s col target)
  | toggle (s : Session) (col : String) : SessionStep s (toggleIgnore s col)
  | suggest (s : Session) (msgs : List (String × String)) :
      SessionStep s (applySuggestions s msgs)
  | automap (s : Session) (scanned targets : List String) :
      SessionStep s (autoMapPass s scanned targets)

/-- Session states reachable by session operations from the initial
(empty) model. -/
inductive SessionReachable : Session → Prop
  | init : SessionReachable emptySession
  | step {s s' : Session} : SessionReachable s → SessionStep s s' → SessionReachable s'

/-- Exclusivity: no observed column is simultaneously mapped and
ignored. -/
def ExclusiveInv (s : Session) : Prop :=
  ∀ p ∈ s.mappings, s.ignored.contains p.1 = false

/-! ## Numeric cell typing (editor.go: `parseNumericValue`,
`SetCellValueSmart`, `applyFloatFormatting`)

The Go code delegates to `strconv.ParseInt(trimmed, 10, 64)` and
`strconv.ParseFloat(trimmed, 64)`.  `goParseInt64` models `ParseInt`
exactly (optional sign, non-empty base-10 digit run, int64 range).
`goParseFloatOk` models whether `ParseFloat` accepts the string: the
full accepted syntax (signed decimals with optional fraction and
exponent, hexadecimal floats with mandatory binary exponent,
case-insensitive inf/infinity/nan specials, digit-separating
underscores) and the float64 range check: a syntactically valid
literal whose magnitude rounds to ±Inf gets `ErrRange`, so `err == nil`
fails and the program falls through to the string branch.  Overflow of
a round-to-nearest-even float64 happens exactly when the literal's
magnitude is at least `2^1024 - 2^970` (the largest finite float64 plus
half an ulp; the tie rounds to the even `2^1024`).  Underflow is not an
error: `ParseFloat` then returns `0, nil` (only the overflow case is an
`ErrRange` per the strconv documentation and `atof.go`).  The mantissa
is accumulated exactly; the exponent accumulator saturates below 10000
exactly as `readFloat`'s `e < 10000` guard does, so even the quirky
interaction of six-digit exponents with very long mantissas is
reproduced. -/

def isDecDigit (c : Char) : Bool :=
  decide ('0' ≤ c) && decide (c ≤ '9')

def lowerAscii (c : Char) : Char :=
  if 'A' ≤ c ∧ c ≤ 'Z' then Char.ofNat (c.toNat + 32) else c

def isHexDigit (c : Char) : Bool :=
  isDecDigit c || (decide ('a' ≤ lowerAscii c) && decide (lowerAscii c ≤ 'f'))

/-- Accumulate the value of a base-10 digit run; `none` on any
non-digit. -/
def decValAux : List Char → Nat → Option Nat
  | [], acc => some acc
  | c :: rest, acc =>
    if isDecDigit c then decValAux rest (acc * 10 + (c.toNat - '0'.toNat))
    else none

/-- Model of Go `strconv.ParseInt(s, 10, 64)`: optional sign, at least
one digit, no underscores (base is explicit), int64 range check
(`-2^63 ≤ v ≤ 2^63 - 1`). -/
def goParseInt64 (s : List Char) : Option Int :=
  match s with
  | [] => none
  | '+' :: rest =>
    match rest, decValAux rest 0 with
    | _ :: _, some n => if n ≤ 9223372036854775807 then some (Int.ofNat n) else none
    | _, _ => none
  | '-' :: rest =>
    match rest, decValAux rest 0 with
    | _ :: _, some n => if n ≤ 9223372036854775808 then some (-(Int.ofNat n)) else none
    | _, _ => none
  | _ =>
    match decValAux s 0 with
    | some n => if n ≤ 9223372036854775807 then some (Int.ofNat n) else none
    | none => none

def dropSign : List Char → List Char
  | '+' :: rest => rest
  | '-' :: rest => rest
  | s => s

/-- Case-insensitive (ASCII) equality with a pattern. -/
def lowerEqL : List Char → List Char → Bool
  | [], [] => true
  | c :: cs, d :: ds => lowerAscii c == d && lowerEqL cs ds
  | _, _ => false

/-- Go `strconv`'s `special`: optionally signed inf/infinity, unsigned
nan, case-insensitive, consuming the whole string. -/
def floatSpecialOk (s : List Char) : Bool :=
  lowerEqL s ['n', 'a', 'n'] ||
  (let b := dropSign s
   lowerEqL b ['i', 'n', 'f'] || lowerEqL b ['i', 'n', 'f', 'i', 'n', 'i', 't', 'y'])

/-- Numeric value of a (decimal or hex) digit. -/
def hexDigitVal (c : Char) : Nat :=
  if isDecDigit c then c.toNat - 48 else (lowerAscii c).toNat - 87

/-- The mantissa loop of Go `readFloat`: consume digits (hex digits in
hex mode), underscores, and at most one dot; return whether any digit
was seen, the accumulated mantissa value, the number of digits after
the dot, and the unconsumed remainder. -/
def scanMantissa (hex : Bool) : List Char → Bool → Bool → Nat → Nat →
    (Bool × Nat × Nat × List Char)
  | [], _, sawDigits, m, frac => (sawDigits, m, frac, [])
  | c :: rest, sawDot, sawDigits, m, frac =>
    if c = '_' then scanMantissa hex rest sawDot sawDigits m frac
    else if c = '.' then
      if sawDot then (sawDigits, m, frac, c :: rest)
      else scanMantissa hex rest true sawDigits m frac
    else if (if hex then isHexDigit c else isDecDigit c) then
      scanMantissa hex rest sawDot true ((if hex then 16 else 10) * m + hexDigitVal c)
        (if sawDot then frac + 1 else frac)
    else (sawDigits, m, frac, c :: rest)

/-- Digit/underscore run of an exponent after its first digit. -/
def scanExpRest : List Char → List Char
  | [] => []
  | c :: rest =>
    if isDecDigit c || c = '_' then scanExpRest rest
    else c :: rest

/-- Value of the exponent digits after the first one, with `readFloat`'s
saturation: a digit is folded in only while the accumulator is below
10000 (`if e < 10000 { e = e*10 + ... }`). -/
def expValAux : List Char → Nat → Nat
  | [], acc => acc
  | c :: rest, acc =>
    if c = '_' then expValAux rest acc
    else if isDecDigit c then
      expValAux rest (if acc < 10000 then acc * 10 + (c.toNat - 48) else acc)
    else acc

/-- Exponent part after the marker letter: optional sign, then a first
mandatory digit, then digits/underscores.  Returns the signed saturated
value and the remainder, or `none` if no digit follows. -/
def scanExponent (s : List Char) : Option (Int × List Char) :=
  match dropSign s with
  | c :: rest =>
    if isDecDigit c then
      let v : Nat := expValAux rest (c.toNat - 48)
      let sv : Int :=
        match s with
        | '-' :: _ => -(Int.ofNat v)
        | _ => Int.ofNat v
      some (sv, scanExpRest rest)
    else none
  | [] => none

/-- `2^1024 - 2^970`: the smallest magnitude that rounds (to nearest,
ties to even) beyond the largest finite float64 and so draws
`ErrRange` from `ParseFloat`. -/
def floatMaxBound : Nat := 2 ^ 970 * (2 ^ 54 - 1)

/-- Whether a decimal literal of value `m * 10^k` overflows float64.
The clamps avoid building astronomically large powers: with `m ≥ 1`,
`k ≥ 309` forces the value past the bound, and a value below `1` cannot
reach it. -/
def decOverflow (m : Nat) (k : Int) : Bool :=
  if m = 0 then false
  else
    match k with
    | Int.ofNat n =>
      if 309 ≤ n then true
      else decide (floatMaxBound ≤ m * 10 ^ n)
    | Int.negSucc n' =>
      if m < 10 ^ (n' + 1) then false
      else decide (floatMaxBound * 10 ^ (n' + 1) ≤ m)

/-- Whether a hexadecimal literal of value `m * 2^k` overflows float64. -/
def hexOverflow (m : Nat) (k : Int) : Bool :=
  if m = 0 then false
  else
    match k with
    | Int.ofNat n =>
      if 1025 ≤ n then true
      else decide (floatMaxBound ≤ m * 2 ^ n)
    | Int.negSucc n' =>
      if m < 2 ^ (n' + 1) then false
      else decide (floatMaxBound * 2 ^ (n' + 1) ≤ m)

/-- The `underscoreOK` check of Go `strconv`: underscores may appear
only between digits or between a base prefix and a digit. -/
def underscoreLoop (hex : Bool) : List Char → Char → Bool
  | [], saw => !(saw == '_')
  | c :: rest, saw =>
    if isDecDigit c || (hex && (decide ('a' ≤ lowerAscii c) && decide (lowerAscii c ≤ 'f'))) then
      underscoreLoop hex rest '0'
    else if c = '_' then
      if saw == '0' then underscoreLoop hex rest '_' else false
    else if saw == '_' then false
    else underscoreLoop hex rest '!'

def underscoreOKFn (s : List Char) : Bool :=
  let b := dropSign s
  match b with
  | '0' :: p :: rest =>
    if lowerAscii p == 'b' || lowerAscii p == 'o' || lowerAscii p == 'x' then
      underscoreLoop (lowerAscii p == 'x') rest '0'
    else underscoreLoop false b '^'
  | _ => underscoreLoop false b '^'

/-- Whether the string contains an underscore (Go sets a flag while
scanning and only then runs `underscoreOK`). -/
def hasUnderscore (s : List Char) : Bool :=
  s.any (fun c => c == '_')

/-- Model of `strconv.ParseFloat(s, 64)` succeeding with `err == nil`
(see the section comment for the scope): full syntax acceptance plus
the float64 overflow (`ErrRange`) rejection. -/
def goParseFloatOk (s : List Char) : Bool :=
  if floatSpecialOk s then true
  else
    let body := dropSign s
    -- decimal mantissa with optional e-exponent, then the range check
    let decCore : List Char → Bool := fun b =>
      match scanMantissa false b false false 0 0 with
      | (sawDigits, m, frac, rem) =>
        sawDigits &&
        (match rem with
         | [] => !(decOverflow m (0 - Int.ofNat frac))
         | e :: rem' =>
           if lowerAscii e == 'e' then
             match scanExponent rem' with
             | some (ev, []) => !(decOverflow m (ev - Int.ofNat frac))
             | _ => false
           else false)
    let core : Bool :=
      match body with
      | '0' :: x :: c :: rest =>
        if lowerAscii x == 'x' then
          -- hexadecimal mantissa with mandatory p-exponent, then the range check
          match scanMantissa true (c :: rest) false false 0 0 with
          | (sawDigits, m, frac, rem) =>
            sawDigits &&
            (match rem with
             | e :: rem' =>
               if lowerAscii e == 'p' then
                 match scanExponent rem' with
                 | some (ev, []) => !(hexOverflow m (ev - 4 * Int.ofNat frac))
                 | _ => false
               else false
             | [] => false)
        else decCore body
      | _ => decCore body
    core && (!(hasUnderscore s) || underscoreOKFn s)

/-- Value passed to `SetCellValue` by the smart copy: an int64, a
float64 (represented by the trimmed source text it was parsed from —
the IEEE value itself is not needed by any claim), or the original
string. -/
inductive GoCellValue
  | intVal (i : Int)
  | floatVal (source : String)
  | strVal (s : String)
deriving DecidableEq

/-- Shallow embedding of `parseNumericValue` (editor.go): trim, try
int64, then float64, else keep the original string; the flag records
whether the float branch was taken. -/
def parseNumericValue (value : String) : GoCellValue × Bool :=
  let trimmed := trimSpace value.data
  if trimmed.isEmpty then (GoCellValue.strVal value, false)
  else
    match goParseInt64 trimmed with
    | some i => (GoCellValue.intVal i, false)
    | none =>
      if goParseFloatOk trimmed then (GoCellValue.floatVal (String.mk trimmed), true)
      else (GoCellValue.strVal value, false)

/-- Result of `SetCellValueSmart`: the written value and whether the
two-decimal-place display style (`applyFloatFormatting`, NumFmt 2 =
"0.00") was applied to the cell. -/
structure SmartWrite where
  value : GoCellValue
  twoDecimalFmt : Bool
deriving DecidableEq

/-- Shallow embedding of `Editor.SetCellValueSmart` (editor.go). -/
def setCellValueSmart (value : String) : SmartWrite :=
  let (numericValue, isFloat) := parseNumericValue value
  { value := numericValue, twoDecimalFmt := isFloat }

/-! ## The per-sheet rewrite pipeline (format.go, `fileFormatter`)

`FormatFileWithTarget` opens the target workbook and the input workbook,
loads the mapping file, and rewrites the input sheet in memory; on any
recorded soft error it copies the *on-disk* input file (whose bytes the
in-memory edits never touch) into `data/problematic/` and fails without
saving; otherwise it saves the edited workbook to the output path.

A `FormatJob` carries the data one invocation reads: the input path and
its opaque on-disk bytes, the input sheet name, the input sheet rows
(`GetRows`), the target sheet rows, the target sheet's formula cells
(`GetCellFormula` answers, keyed by 0-based column and 1-based row; ""
means no formula), and the loaded mapping list.  Cell mutations are
recorded as an ordered `CellWrite` list rather than replayed into a
grid — no later step of the Go code reads a cell it has written. -/

structure FormatJob where
  inputPath : String
  inputBytes : List Nat
  inputSheet : String
  inputRows : List (List String)
  targetRows : List (List String)
  targetFormulas : List ((Nat × Nat) × String)
  mappings : List ColumnMapping
deriving DecidableEq

/-- `Editor.GetColumnHeaders` (editor.go): the row at the detected
header position, or `[]` when the sheet has fewer rows. -/
def getColumnHeaders (rows : List (List String)) : List String :=
  let headerRow := detectHeaderRow rows
  if rows.length < headerRow then [] else rows.getD (headerRow - 1) []

/-- The reverse mapping target→scanned built in `loadMappingAndHeaders`:
records that are not ignored and have a non-empty target, later records
overwriting earlier ones (Go map assignment). -/
def targetToScannedLookup (mappings : List ColumnMapping) (target : String) : Option String :=
  mappings.foldl
    (fun acc m =>
      if m.is_ignored = false ∧ m.target_column ≠ "" ∧ m.target_column = target then
        some m.scanned_column
      else acc)
    none

/-- The `inputHeaderMap` of `loadMappingAndHeaders` (header name →
column index, built by an ascending loop over the header row so that a
duplicated name keeps its last index), fused with its lookup. -/
def headerIndex : List String → String → Option Nat
  | [], _ => none
  | h :: rest, name =>
    match headerIndex rest name with
    | some i => some (i + 1)
    | none => if h = name then some 0 else none

/-- `GetCellFormula` on the target sheet: the stored formula text of the
cell at (0-based column, 1-based row), or "" when there is none. -/
def formulaAt (formulas : List ((Nat × Nat) × String)) (col row : Nat) : String :=
  match formulas.find? (fun e => e.1.1 == col && e.1.2 == row) with
  | some e => e.2
  | none => ""

/-- `detectColumnFormulas` (format.go): for every target column index,
read the formula of the cell in the fixed absolute row 2 of that column
and collect the non-empty ones.  (The Go loop ranges over
`f.targetHeaders` with its index; only the index enters the map.) -/
def detectColumnFormulas (targetFormulas : List ((Nat × Nat) × String))
    (targetHeaders : List String) : List (Nat × String) :=
  (List.range targetHeaders.length).foldl
    (fun acc idx =>
      let f := formulaAt targetFormulas idx 2
      if f ≠ "" then acc ++ [(idx, f)] else acc)
    []

def colFormula? (colFormulas : List (Nat × String)) (col : Nat) : Option String :=
  (colFormulas.find? (fun e => e.1 == col)).map (fun e => e.2)

/-- `hasExistingData` (format.go): more rows than just the first one. -/
def hasExistingData (rows : List (List String)) : Bool :=
  decide (2 ≤ rows.length)

/-- `InsertRows(sheet, 2, 1)` (editor.go): one blank row appears at
position 2, shifting everything below down. -/
def insertRowAt2 (rows : List (List String)) : List (List String) :=
  rows.take 1 ++ [[]] ++ rows.drop 1

def colFormulasOf (job : FormatJob) : List (Nat × String) :=
  detectColumnFormulas job.targetFormulas (getColumnHeaders job.targetRows)

/-- The input rows actually used for writing: re-read after the blank
row insertion of `insertRowForFormulas` when column formulas were
detected and data exists, otherwise the original rows. -/
def usedRows (job : FormatJob) : List (List String) :=
  if colFormulasOf job ≠ [] ∧ hasExistingData job.inputRows = true then
    insertRowAt2 job.inputRows
  else job.inputRows

/-- One recorded cell mutation of the in-memory input workbook. -/
inductive CellWrite
  | headerWrite (col : Nat) (value : String)
  | formulaWrite (col row : Nat) (formula : String)
  | valueWrite (col row : Nat) (w : SmartWrite)
deriving DecidableEq

/-- `filepath.Base` for slash-separated paths. -/
def baseName (path : String) : String :=
  if path.data.isEmpty then "."
  else
    let t := (path.data.reverse.dropWhile (fun c => c == '/')).reverse
    if t.isEmpty then "/"
    else String.mk ((t.reverse.takeWhile (fun c => !(c == '/'))).reverse)

def quarantinePath (inputPath : String) : String :=
  "data/problematic/" ++ baseName inputPath

/-- ASCII single quote, used by the soft-error message format. -/
def squote : String := String.mk [Char.ofNat 39]

/-- Soft error `"<file>:<sheet>:: no mapping for '<target>'"`. -/
def errNoMapping (fileName sheet target : String) : String :=
  fileName ++ ":" ++ sheet ++ ":: no mapping for " ++ squote ++ target ++ squote

/-- Soft error `"<file>:<sheet>:: mapped column '<scanned>' not found in input"`. -/
def errColumnMissing (fileName sheet scanned : String) : String :=
  fileName ++ ":" ++ sheet ++ ":: mapped column " ++ squote ++ scanned ++ squote ++
    " not found in input"

/-- `applyColumnFormula`: write the row-adjusted template into rows
2 … len−1 of the column. -/
def applyColumnFormula (rows : List (List String)) (col : Nat) (formula : String) :
    List CellWrite :=
  (List.range' 2 (rows.length - 2)).map
    (fun rowIndex => CellWrite.formulaWrite col rowIndex (adjustFormulaForRow formula rowIndex))

/-- `processColumnWithMapping` body: for each data row (1-based cell row
`rowIndex + 1`), copy the target's per-cell formula when present, else
copy the input value with smart numeric typing (when the input row is
wide enough). -/
def copyMappedColumn (job : FormatJob) (rows : List (List String)) (col inputColIndex : Nat) :
    List CellWrite :=
  (List.range' 1 (rows.length - 1)).foldl
    (fun acc rowIndex =>
      let tf := formulaAt job.targetFormulas col (rowIndex + 1)
      if tf ≠ "" then acc ++ [CellWrite.formulaWrite col (rowIndex + 1) tf]
      else
        let row := rows.getD rowIndex []
        if inputColIndex < row.length then
          acc ++ [CellWrite.valueWrite col (rowIndex + 1)
            (setCellValueSmart (row.getD inputColIndex ""))]
        else acc)
    []

/-- `copyFormulasOnly`: propagate the target's per-cell formulas of an
unmapped column. -/
def copyFormulasOnly (job : FormatJob) (rows : List (List String)) (col : Nat) :
    List CellWrite :=
  (List.range' 1 (rows.length - 1)).foldl
    (fun acc rowIndex =>
      let tf := formulaAt job.targetFormulas col (rowIndex + 1)
      if tf ≠ "" then acc ++ [CellWrite.formulaWrite col (rowIndex + 1) tf]
      else acc)
    []

/-- `processTargetColumn`: set the target header text, then either
replay a column-wide formula, copy mapped data, or record a soft error
(still propagating per-cell formulas). -/
def processTargetColumn (job : FormatJob) (rows : List (List String))
    (colFormulas : List (Nat × String)) (idx : Nat) (header : String) :
    List CellWrite × List String :=
  let headerW := [CellWrite.headerWrite idx header]
  match colFormula? colFormulas idx with
  | some formula => (headerW ++ applyColumnFormula rows idx formula, [])
  | none =>
    match targetToScannedLookup job.mappings header with
    | some scanned =>
      match headerIndex (getColumnHeaders job.inputRows) scanned with
      | some inputColIndex => (headerW ++ copyMappedColumn job rows idx inputColIndex, [])
      | none =>
        (headerW, [errColumnMissing (baseName job.inputPath) job.inputSheet scanned])
    | none =>
      (headerW ++ copyFormulasOnly job rows idx,
       [errNoMapping (baseName job.inputPath) job.inputSheet header])

/-- `processAllColumns`: left-to-right over the target columns,
accumulating writes and soft errors. -/
def processAllColumns (job : FormatJob) (rows : List (List String))
    (targetHeaders : List String) (colFormulas : List (Nat × String)) :
    List CellWrite × List String :=
  targetHeaders.enum.foldl
    (fun acc p =>
      let r := processTargetColumn job rows colFormulas p.1 p.2
      (acc.1 ++ r.1, acc.2 ++ r.2))
    ([], [])

/-- Result of one per-sheet rewrite invocation. -/
structure FormatOutcome where
  success : Bool
  errors : List String
  savedOutput : Option (String × List CellWrite)
  quarantined : Option (String × List Nat)
deriving DecidableEq

/-- Shallow embedding of `fileFormatter.format` /
`saveFormattedFile` (format.go): detect target headers and column
formulas, insert the blank row when needed, process every target
column, then either save the edited workbook to the output path (no
errors) or copy the pristine on-disk input bytes into the quarantine
directory under the input's basename and fail. -/
def formatSheet (job : FormatJob) (outputPath : String) : FormatOutcome :=
  let targetHeaders := getColumnHeaders job.targetRows
  let colFormulas := colFormulasOf job
  let rows := usedRows job
  let processed := processAllColumns job rows targetHeaders colFormulas
  if processed.2 = [] then
    { success := true, errors := [],
      savedOutput := some (outputPath, processed.1), quarantined := none }
  else
    { success := false, errors := processed.2, savedOutput := none,
      quarantined := some (quarantinePath job.inputPath, job.inputBytes) }

/-! Spec-side restatements for claim C3, worded from the claim: the
template row is "the row immediately below the target's header", and
the insertion condition asks for "at least one data row below the
input's header". -/

/-- Claim-worded template detection for one target column. -/
def claimTemplateDetected (job : FormatJob) (colIdx : Nat) : Bool :=
  decide (formulaAt job.targetFormulas colIdx (detectHeaderRow job.targetRows + 1) ≠ "")

/-- Number of input rows strictly below the detected input header row. -/
def inputDataRowCount (job : FormatJob) : Nat :=
  job.inputRows.length - detectHeaderRow job.inputRows

/-- Concrete job refuting C3 as stated: the target's header row is
detected at row 2 and its column formula sits at row 3 (immediately
below that header), but the code looks only at absolute row 2. -/
def sampleJobC3 : FormatJob :=
  { inputPath := "data/input/input.xlsx"
    inputBytes := [7, 7, 7]
    inputSheet := "Sheet1"
    inputRows := [["h"], ["d"]]
    targetRows := [["x"], ["x", "H"]]
    targetFormulas := [((0, 3), "=A1")]
    mappings := [{ scanned_column := "h", target_column := "H", is_ignored := false }] }

/-- Concrete job for the amended C3 and for C1's witness: the spec's
own scenario — target `[ID, Name, Amount]`, mapping `{CustNo→ID,
CustName→Name}`, `Amount` unmapped, input `[CustNo, CustName]` with one
data row. -/
def sampleJobC1 : FormatJob :=
  { inputPath := "data/input/input.xlsx"
    inputBytes := [1, 2, 3, 4]
    inputSheet := "Sheet1"
    inputRows := [["CustNo", "CustName"], ["7", "Acme"]]
    targetRows := [["ID", "Name", "Amount"]]
    targetFormulas := []
    mappings :=
      [{ scanned_column := "CustNo", target_column := "ID", is_ignored := false },
       { scanned_column := "CustName", target_column := "Name", is_ignored := false }] }

/-- Concrete job exercising the amended C3 insertion branch: a column
formula in target row 2 and an input with one data row. -/
def sampleJobC3b : FormatJob :=
  { inputPath := "data/input/input.xlsx"
    inputBytes := [9]
    inputSheet := "Sheet1"
    inputRows := [["h"], ["1"]]
    targetRows := [["H"]]
    targetFormulas := [((0, 2), "=An")]
    mappings := [{ scanned_column := "h", target_column := "H", is_ignored := false }] }

/-! ## Header cleaning (scanner.go, `cleanColumnName`)

The Go function trims with `strings.TrimSpace` (Unicode white space),
removes HTML tags with the regexp `<[^>]+>`, keeps the first line whose
`TrimSpace` is non-empty, collapses runs matching the regexp `\s+`
(which in RE2 is the ASCII class `[\t\n\f\r ]`) to single spaces, and
trims again. -/

/-- RE2's Perl class `\s`: tab, newline, form feed, carriage return,
space (note: no vertical tab, unlike `unicode.IsSpace`). -/
def regexSpace (c : Char) : Bool :=
  c == Char.ofNat 9 || c == Char.ofNat 10 || c == Char.ofNat 12 ||
  c == Char.ofNat 13 || c == ' '

/-- Scan for the first '>' and return the suffix after it. -/
def skipToGt : List Char → Option (List Char)
  | [] => none
  | c :: rest => if c = '>' then some rest else skipToGt rest

/-- Whether the list starts with at least one non-'>' character followed
(at any distance, through non-'>' characters) by a '>' — i.e. whether
`'<' :: list` begins a match of the regexp `<[^>]+>`; returns the
suffix after that '>'. -/
def findTag : List Char → Option (List Char)
  | [] => none
  | c :: rest => if c = '>' then none else skipToGt rest

/-- Replacement of every match of `<[^>]+>` by the empty string, with
the leftmost-match, resume-after-match semantics of
`Regexp.ReplaceAllString`.  (The character class `[^>]` also matches a
newline.) -/
def stripTags (cs : List Char) : List Char :=
  match cs with
  | [] => []
  | c :: rest =>
    if c = '<' then
      match h : findTag rest with
      | some rest' => stripTags rest'
      | none => c :: stripTags rest
    else c :: stripTags rest
termination_by cs.length
decreasing_by
  all_goals simp only [List.length_cons]
  · have hlen : ∀ (l r : List Char), skipToGt l = some r → r.length < l.length := by
      intro l
      induction l with
      | nil => intro r hr; cases hr
      | cons a t ih =>
        intro r hr
        rw [skipToGt] at hr
        by_cases ha : a = '>'
        · rw [if_pos ha] at hr
          cases hr
          simp
        · rw [if_neg ha] at hr
          have := ih r hr
          simp only [List.length_cons]
          omega
    have hft : rest'.length < cs.length := by
      cases cs with
      | nil => cases h
      | cons a t =>
        rw [findTag] at h
        by_cases ha : a = '>'
        · rw [if_pos ha] at h; cases h
        · rw [if_neg ha] at h
          have := hlen t rest' h
          simp only [List.length_cons]
          omega
    omega
  · omega
  · omega

/-- Go `strings.Split(s, "\n")`. -/
def splitNl : List Char → List (List Char)
  | [] => [[]]
  | c :: rest =>
    if c = Char.ofNat 10 then [] :: splitNl rest
    else
      match splitNl rest with
      | [] => [[c]]
      | line :: more => (c :: line) :: more

/-- The first-non-blank-line loop: the `TrimSpace` of the first line
whose trim is non-empty, or `[]`. -/
def firstNonblankLine : List (List Char) → List Char
  | [] => []
  | l :: rest =>
    let t := trimSpace l
    if t.isEmpty then firstNonblankLine rest else t

/-- Replacement of every maximal run matching `\s+` by a single
space. -/
def collapseWs : List Char → List Char
  | [] => []
  | c :: rest =>
    if regexSpace c then ' ' :: collapseWs (rest.dropWhile regexSpace)
    else c :: collapseWs rest
termination_by cs => cs.length
decreasing_by
  all_goals simp only [List.length_cons]
  · have h1 : (List.dropWhile regexSpace cs).Sublist cs := List.dropWhile_sublist _
    have := h1.length_le
    omega
  · omega

/-- Shallow embedding of `cleanColumnName` (scanner.go). -/
def cleanColumnName (rawName : String) : String :=
  if rawName = "" then ""
  else
    let cleaned := trimSpace rawName.data
    let untagged := stripTags cleaned
    let firstLine := firstNonblankLine (splitNl untagged)
    if firstLine.isEmpty then ""
    else String.mk (trimSpace (collapseWs firstLine))

/-- Whether the list contains a match of the tag regexp `<[^>]+>`. -/
def hasTagB : List Char → Bool
  | [] => false
  | c :: rest => ((c == '<') && (findTag rest).isSome) || hasTagB rest

/-- A list is collapsed when its only `\s` characters are single,
non-adjacent spaces — the shape `collapseWs` produces. -/
def Collapsed (l : List Char) : Prop :=
  (∀ c ∈ l, regexSpace c = false ∨ c = ' ') ∧
  l.Chain' (fun a b => ¬ (a = ' ' ∧ b = ' '))

/-- The rune-level core of `cleanColumnName` (everything except the
initial empty-string test and the `String` wrapping). -/
def cleanCore (cs : List Char) : List Char :=
  let firstLine := firstNonblankLine (splitNl (stripTags (trimSpace cs)))
  if firstLine.isEmpty then [] else trimSpace (collapseWs firstLine)

/-! ## Persistence of mapping configurations (ai.go)

`MappingConfig.SaveToFile` serialises the struct with
`json.MarshalIndent(mc, "", "  ")` and `LoadFromFile` reads it back with
`json.Unmarshal`.  The embedding renders the exact byte sequence
`MarshalIndent` produces for a `MappingConfig` value (two-space indent,
space after each colon, Go string escaping with HTML escaping enabled,
`null` for a nil `Mappings` slice), and parses it back with a
whitespace-tolerant reader of that fixed schema whose string/escape and
surrogate handling follows the `encoding/json` decoder. -/

def quoteC : Char := Char.ofNat 34

def bslashC : Char := Char.ofNat 92

def lbraceC : Char := Char.ofNat 123

def rbraceC : Char := Char.ofNat 125

def nlC : Char := Char.ofNat 10

/-- Lower-case hexadecimal digit, as emitted by the `encoding/json` encoder. -/
def hexDigitL (n : Nat) : Char :=
  if n < 10 then Char.ofNat (48 + n) else Char.ofNat (87 + n)

/-- A `\uXXXX` escape with lower-case hex digits. -/
def u4esc (n : Nat) : List Char :=
  [bslashC, 'u', hexDigitL (n / 4096 % 16), hexDigitL (n / 256 % 16),
   hexDigitL (n / 16 % 16), hexDigitL (n % 16)]

/-- Go `encoding/json` string escaping for one rune (HTML escaping on, the
`Marshal` default): quote and backslash get two-character escapes, `<`, `>`,
`&` become `\u00XX`, newline/carriage-return/tab get short escapes, other
control characters become `\u00XX`, U+2028/U+2029 become `\u202X`, and
everything else is emitted literally. -/
def jsonEscapeChar (c : Char) : List Char :=
  if c = quoteC then [bslashC, quoteC]
  else if c = bslashC then [bslashC, bslashC]
  else if c = Char.ofNat 60 ∨ c = Char.ofNat 62 ∨ c = Char.ofNat 38 then u4esc c.toNat
  else if c = Char.ofNat 10 then [bslashC, 'n']
  else if c = Char.ofNat 13 then [bslashC, 'r']
  else if c = Char.ofNat 9 then [bslashC, 't']
  else if c.toNat < 32 then u4esc c.toNat
  else if c.toNat = 8232 ∨ c.toNat = 8233 then u4esc c.toNat
  else [c]

def jsonEscape : List Char → List Char
  | [] => []
  | c :: r => jsonEscapeChar c ++ jsonEscape r

/-- A JSON string literal: quote, escaped content, quote. -/
def jsonStr (s : List Char) : List Char := quoteC :: (jsonEscape s ++ [quoteC])

def renderBool (b : Bool) : List Char := if b then "true".data else "false".data

def ind2 : List Char := [' ', ' ']

def ind4 : List Char := [' ', ' ', ' ', ' ']

def ind6 : List Char := [' ', ' ', ' ', ' ', ' ', ' ']

/-- One `ColumnMapping` record as `MarshalIndent` lays it out inside the
`mappings` array (fields indented six spaces, closing brace four). -/
def renderRecord (m : ColumnMapping) : List Char :=
  [lbraceC, nlC] ++ ind6 ++ jsonStr "scanned_column".data ++ [':', ' '] ++
    jsonStr m.scanned_column.data ++ [',', nlC] ++
  ind6 ++ jsonStr "target_column".data ++ [':', ' '] ++
    jsonStr m.target_column.data ++ [',', nlC] ++
  ind6 ++ jsonStr "is_ignored".data ++ [':', ' '] ++
    renderBool m.is_ignored ++ [nlC] ++
  ind4 ++ [rbraceC]

/-- The records of the `mappings` array, separated by `,\n    `. -/
def renderRecords : List ColumnMapping → List Char
  | [] => []
  | [m] => renderRecord m
  | m :: rest => renderRecord m ++ [',', nlC] ++ ind4 ++ renderRecords rest

/-- The exact bytes `json.MarshalIndent(mc, "", "  ")` produces (as runes): an
empty `Mappings` slice is Go's nil slice and marshals as `null`. -/
def saveMappingString (mc : MappingConfig) : List Char :=
  if mc.mappings.isEmpty then
    [lbraceC, nlC] ++ ind2 ++ jsonStr "mappings".data ++ [':', ' '] ++
      "null".data ++ [nlC, rbraceC]
  else
    [lbraceC, nlC] ++ ind2 ++ jsonStr "mappings".data ++ [':', ' ', '[', nlC] ++
      ind4 ++ renderRecords mc.mappings ++ [nlC] ++ ind2 ++ [']', nlC, rbraceC]

/-- JSON insignificant whitespace. -/
def jsonWs (c : Char) : Bool :=
  c = ' ' ∨ c = Char.ofNat 9 ∨ c = Char.ofNat 10 ∨ c = Char.ofNat 13

def skipWs (l : List Char) : List Char := l.dropWhile jsonWs

/-- Skip whitespace, then require the character `c`. -/
def expectC (c : Char) (l : List Char) : Option (List Char) :=
  match skipWs l with
  | [] => none
  | x :: r => if x = c then some r else none

/-- Single-character string escapes accepted by the decoder. -/
def escChar? (e : Char) : Option Char :=
  if e = quoteC then some quoteC
  else if e = bslashC then some bslashC
  else if e = Char.ofNat 47 then some (Char.ofNat 47)
  else if e = 'b' then some (Char.ofNat 8)
  else if e = 'f' then some (Char.ofNat 12)
  else if e = 'n' then some (Char.ofNat 10)
  else if e = 'r' then some (Char.ofNat 13)
  else if e = 't' then some (Char.ofNat 9)
  else none

def hexVal? (c : Char) : Option Nat :=
  if 48 ≤ c.toNat ∧ c.toNat ≤ 57 then some (c.toNat - 48)
  else if 97 ≤ c.toNat ∧ c.toNat ≤ 102 then some (c.toNat - 87)
  else if 65 ≤ c.toNat ∧ c.toNat ≤ 70 then some (c.toNat - 55)
  else none

def hex4? (a b c d : Char) : Option Nat :=
  match hexVal? a, hexVal? b, hexVal? c, hexVal? d with
  | some x, some y, some z, some w => some (x * 4096 + y * 256 + z * 16 + w)
  | _, _, _, _ => none

/-- Surrogate handling of the decoder: after a `\uXXXX` whose value `n` is a
surrogate, look for a following low-surrogate escape; a valid pair combines,
anything else decodes to U+FFFD consuming only the first escape. -/
def parseUPair (n : Nat) (r3 : List Char) : Option (Option Char × List Char) :=
  match r3 with
  | bs2 :: u2 :: a2 :: b2 :: c3 :: d2 :: r4 =>
    if bs2 = bslashC ∧ u2 = 'u' then
      match hex4? a2 b2 c3 d2 with
      | some m =>
        if n < 56320 ∧ 56320 ≤ m ∧ m < 57344 then
          some (some (Char.ofNat (65536 + (n - 55296) * 1024 + (m - 56320))), r4)
        else some (some (Char.ofNat 65533), r3)
      | none => some (some (Char.ofNat 65533), r3)
    else some (some (Char.ofNat 65533), r3)
  | _ => some (some (Char.ofNat 65533), r3)

/-- A `\u` escape: four hex digits, then surrogate handling if needed. -/
def parseU4 (r2 : List Char) : Option (Option Char × List Char) :=
  match r2 with
  | a :: b :: c2 :: d :: r3 =>
    match hex4? a b c2 d with
    | none => none
    | some n =>
      if 55296 ≤ n ∧ n < 57344 then parseUPair n r3
      else some (some (Char.ofNat n), r3)
  | _ => none

/-- The character after a backslash: `\uXXXX` or a short escape. -/
def parseUEsc (e : Char) (r2 : List Char) : Option (Option Char × List Char) :=
  if e = 'u' then parseU4 r2
  else
    match escChar? e with
    | none => none
    | some ch => some (some ch, r2)

def parseBs (r : List Char) : Option (Option Char × List Char) :=
  match r with
  | [] => none
  | e :: r2 => parseUEsc e r2

/-- Decode one item of a string body, after the opening quote: `some (none, r)`
is the closing quote, `some (some ch, r)` one decoded rune.  Mirrors
`encoding/json`'s `unquoteBytes`: short escapes, `\uXXXX`, UTF-16 surrogate
pairs (an unpaired surrogate decodes to U+FFFD consuming only its own escape),
and a bare control character is an error. -/
def parseUnit (l : List Char) : Option (Option Char × List Char) :=
  match l with
  | [] => none
  | c :: r =>
    if c = quoteC then some (none, r)
    else if c = bslashC then parseBs r
    else if c.toNat < 32 then none
    else some (some c, r)

/-- String-body reader: iterate `parseUnit` until the closing quote, returning
the decoded runes and the input after the quote.  The fuel bounds the number of
decoded items; each item consumes at least one character. -/
def parseStrF : Nat → List Char → Option (List Char × List Char)
  | 0, _ => none
  | fuel + 1, l =>
    match parseUnit l with
    | none => none
    | some (none, r) => some ([], r)
    | some (some ch, r) =>
      match parseStrF fuel r with
      | some (s, rest) => some (ch :: s, rest)
      | none => none

/-- An object key: a string literal that must equal `name`. -/
def parseJKey (name : List Char) (l : List Char) : Option (List Char) :=
  match expectC quoteC l with
  | none => none
  | some r =>
    match parseStrF (r.length + 1) r with
    | some (s, rest) => if s = name then some rest else none
    | none => none

def parseJStr (l : List Char) : Option (List Char × List Char) :=
  match expectC quoteC l with
  | none => none
  | some r => parseStrF (r.length + 1) r

def parseJBool (l : List Char) : Option (Bool × List Char) :=
  match skipWs l with
  | 't' :: 'r' :: 'u' :: 'e' :: r => some (true, r)
  | 'f' :: 'a' :: 'l' :: 's' :: 'e' :: r => some (false, r)
  | _ => none

/-- One `ColumnMapping` object, fields in the struct order the encoder emits. -/
def parseRecord (l : List Char) : Option (ColumnMapping × List Char) :=
  match expectC lbraceC l with
  | none => none
  | some r1 =>
  match parseJKey "scanned_column".data r1 with
  | none => none
  | some r2 =>
  match expectC ':' r2 with
  | none => none
  | some r3 =>
  match parseJStr r3 with
  | none => none
  | some (sc, r4) =>
  match expectC ',' r4 with
  | none => none
  | some r5 =>
  match parseJKey "target_column".data r5 with
  | none => none
  | some r6 =>
  match expectC ':' r6 with
  | none => none
  | some r7 =>
  match parseJStr r7 with
  | none => none
  | some (tc, r8) =>
  match expectC ',' r8 with
  | none => none
  | some r9 =>
  match parseJKey "is_ignored".data r9 with
  | none => none
  | some r10 =>
  match expectC ':' r10 with
  | none => none
  | some r11 =>
  match parseJBool r11 with
  | none => none
  | some (b, r12) =>
  match expectC rbraceC r12 with
  | none => none
  | some r13 =>
    some ({ scanned_column := String.mk sc, target_column := String.mk tc,
            is_ignored := b }, r13)

/-- The comma-separated records of a non-empty `mappings` array, up to and
including the closing bracket.  The fuel bounds the record count. -/
def parseRecordsAux : Nat → List Char → Option (List ColumnMapping × List Char)
  | 0, _ => none
  | fuel + 1, l =>
    match parseRecord l with
    | none => none
    | some (m, r) =>
      match skipWs r with
      | [] => none
      | x :: r2 =>
        if x = ',' then
          match parseRecordsAux fuel r2 with
          | some (ms, rest) => some (m :: ms, rest)
          | none => none
        else if x = ']' then some ([m], r2)
        else none

/-- Parse a persisted mapping configuration: the fixed schema
`{ "mappings": null | [ records ] }` with nothing but whitespace after it,
as `json.Unmarshal` reads the encoder's output back into a `MappingConfig`. -/
def loadMappingString (data : List Char) : Option MappingConfig :=
  match expectC lbraceC data with
  | none => none
  | some r1 =>
  match parseJKey "mappings".data r1 with
  | none => none
  | some r2 =>
  match expectC ':' r2 with
  | none => none
  | some r3 =>
  match skipWs r3 with
  | 'n' :: 'u' :: 'l' :: 'l' :: r4 =>
    match expectC rbraceC r4 with
    | none => none
    | some r5 => if skipWs r5 = [] then some ⟨[]⟩ else none
  | '[' :: r4 =>
    match skipWs r4 with
    | [] => none
    | x :: r5 =>
      if x = ']' then
        match expectC rbraceC r5 with
        | none => none
        | some r6 => if skipWs r6 = [] then some ⟨[]⟩ else none
      else
        match parseRecordsAux data.length r4 with
        | none => none
        | some (ms, r5) =>
          match expectC rbraceC r5 with
          | none => none
          | some r6 => if skipWs r6 = [] then some ⟨ms⟩ else none
  | _ => none

end SheetFmt

namespace SheetFmt

/-! ## Lemmas: generic fold-max helpers -/

theorem foldl_maxf_init {α : Type} (f : α → Nat) :
    ∀ (l : List α) (a : Nat), a ≤ l.foldl (fun acc y => max acc (f y)) a := by
  intro l
  induction l with
  | nil => intro a; simp
  | cons x xs ih =>
    intro a
    simp only [List.foldl_cons]
    exact le_trans (le_max_left a (f x)) (ih (max a (f x)))

theorem foldl_maxf_mem {α : Type} (f : α → Nat) :
    ∀ (l : List α) (a : Nat) (x : α), x ∈ l →
      f x ≤ l.foldl (fun acc y => max acc (f y)) a := by
  intro l
  induction l with
  | nil => intro a x hx; cases hx
  | cons y ys ih =>
    intro a x hx
    simp only [List.foldl_cons]
    rcases List.mem_cons.mp hx with h | h
    · subst h
      exact le_trans (le_max_right a (f x)) (foldl_maxf_init f ys (max a (f x)))
    · exact ih (max a (f y)) x h

theorem foldl_maxf_cases {α : Type} (f : α → Nat) :
    ∀ (l : List α) (a : Nat),
      l.foldl (fun acc y => max acc (f y)) a = a ∨
      ∃ x ∈ l, l.foldl (fun acc y => max acc (f y)) a = f x := by
  intro l
  induction l with
  | nil => intro a; left; rfl
  | cons y ys ih =>
    intro a
    rcases ih (max a (f y)) with h | h
    · simp only [List.foldl_cons]
      rcases Nat.le_total a (f y) with hle | hle
      · right
        exact ⟨y, List.mem_cons_self y ys, by rw [h, Nat.max_eq_right hle]⟩
      · left
        rw [h, Nat.max_eq_left hle]
    · obtain ⟨x, hx, hval⟩ := h
      right
      exact ⟨x, List.mem_cons_of_mem y hx, hval⟩

/-! ## Lemmas about `rowRightmost` -/

theorem rowRightmost_le_length (row : List String) : rowRightmost row ≤ row.length := by
  induction row with
  | nil => simp [rowRightmost]
  | cons c rest ih =>
    simp only [rowRightmost, List.length_cons]
    split
    · omega
    · split <;> omega

theorem rowRightmost_nonblank (row : List String) (r : Nat)
    (h : rowRightmost row = r + 1) : isBlank (row.getD r "") = false := by
  induction row generalizing r with
  | nil => simp [rowRightmost] at h
  | cons c rest ih =>
    simp only [rowRightmost] at h
    by_cases hz : rowRightmost rest ≠ 0
    · rw [if_pos hz] at h
      obtain ⟨s, hs⟩ := Nat.exists_eq_succ_of_ne_zero hz
      have hr : r = s + 1 := by omega
      subst hr
      simpa using ih s hs
    · rw [if_neg hz] at h
      by_cases hb : isBlank c
      · rw [if_pos hb] at h; omega
      · rw [if_neg hb] at h
        have hr : r = 0 := by omega
        subst hr
        simpa using eq_false_of_ne_true hb

theorem lt_rowRightmost_of_nonblank (row : List String) (j : Nat)
    (h : isBlank (row.getD j "") = false) : j < rowRightmost row := by
  induction row generalizing j with
  | nil => simp [isBlank, trimSpace] at h
  | cons c rest ih =>
    cases j with
    | zero =>
      simp only [List.getD_cons_zero] at h
      simp only [rowRightmost]
      split
      · omega
      · rw [h]
        simp
    | succ k =>
      simp only [List.getD_cons_succ] at h
      have := ih k h
      simp only [rowRightmost]
      split
      · omega
      · omega

theorem nonblank_lt_length (row : List String) (j : Nat)
    (h : isBlank (row.getD j "") = false) : j < row.length := by
  by_contra hle
  push_neg at hle
  rw [List.getD_eq_default _ _ hle] at h
  simp [isBlank, trimSpace] at h

/-! ## Lemmas about the range fold used by `lastNonblankCol` -/

theorem rangeFold_spec (p : Nat → Bool) (n : Nat) :
    ((List.range n).foldl (fun acc j => if p j then j + 1 else acc) 0 = 0 ∧
      ∀ j < n, p j = false) ∨
    (∃ j < n, (List.range n).foldl (fun acc j => if p j then j + 1 else acc) 0 = j + 1 ∧
      p j = true ∧ ∀ k, j < k → k < n → p k = false) := by
  induction n with
  | zero => left; constructor; rfl; intro j hj; omega
  | succ m ih =>
    rw [List.range_succ, List.foldl_append]
    simp only [List.foldl_cons, List.foldl_nil]
    by_cases hp : p m
    · right
      refine ⟨m, Nat.lt_succ_self m, ?_, hp, ?_⟩
      · rw [if_pos hp]
      · intro k hk hk'; omega
    · rw [if_neg hp]
      rcases ih with ⟨hval, hall⟩ | ⟨j, hj, hval, hpj, hafter⟩
      · left
        refine ⟨hval, ?_⟩
        intro j hj
        rcases Nat.lt_succ_iff_lt_or_eq.mp hj with h | h
        · exact hall j h
        · subst h; exact eq_false_of_ne_true hp
      · right
        refine ⟨j, Nat.lt_succ_of_lt hj, hval, hpj, ?_⟩
        intro k hk hk'
        rcases Nat.lt_succ_iff_lt_or_eq.mp hk' with h | h
        · exact hafter k hk h
        · subst h; exact eq_false_of_ne_true hp

/-! ## The two rightmost-column computations agree -/

theorem colNonblank_exists (rows : List (List String)) (j : Nat) :
    colNonblank rows j = true ↔ ∃ row ∈ rows, isBlank (row.getD j "") = false := by
  simp only [colNonblank, List.any_eq_true, Bool.not_eq_true']

theorem colNonblank_false_of_fold_le (rows : List (List String)) (m : Nat)
    (hub : ∀ row ∈ rows, rowRightmost row ≤ m) :
    ∀ j, m ≤ j → colNonblank rows j = false := by
  intro j hj
  by_contra hne
  have hc : colNonblank rows j = true := by
    cases h : colNonblank rows j
    · exact absurd h hne
    · rfl
  obtain ⟨row, hrow, hnb⟩ := (colNonblank_exists rows j).mp hc
  have h1 := lt_rowRightmost_of_nonblank row j hnb
  have h2 := hub row hrow
  omega

theorem lastNonblankCol_of_allBlank (rows : List (List String))
    (hblank : ∀ j, colNonblank rows j = false) : lastNonblankCol rows = 0 := by
  rw [lastNonblankCol]
  rcases rangeFold_spec (colNonblank rows) (maxRowLen rows) with ⟨hval, _⟩ |
      ⟨j, _, _, hpj, _⟩
  · exact hval
  · rw [hblank j] at hpj; cases hpj

theorem lastNonblankCol_of_max (rows : List (List String)) (m : Nat)
    (hcm : colNonblank rows m = true) (hmlen : m < maxRowLen rows)
    (hupper : ∀ j, m < j → colNonblank rows j = false) :
    lastNonblankCol rows = m + 1 := by
  rw [lastNonblankCol]
  rcases rangeFold_spec (colNonblank rows) (maxRowLen rows) with ⟨_, hall⟩ |
      ⟨j, hjn, hval, hpj, hafter⟩
  · rw [hall m hmlen] at hcm; cases hcm
  · rcases Nat.lt_trichotomy j m with h | h | h
    · rw [hafter m h hmlen] at hcm; cases hcm
    · rw [hval, h]
    · rw [hupper j h] at hpj; cases hpj

theorem rightmostColFold_eq_lastNonblankCol (rows : List (List String)) :
    rightmostColFold rows = lastNonblankCol rows := by
  have hub : ∀ row ∈ rows, rowRightmost row ≤ rightmostColFold rows := by
    intro row hrow
    exact foldl_maxf_mem rowRightmost rows 0 row hrow
  rcases hMz : rightmostColFold rows with _ | m
  · rw [hMz] at hub
    exact (lastNonblankCol_of_allBlank rows
      (fun j => colNonblank_false_of_fold_le rows 0 hub j (Nat.zero_le j))).symm
  · rcases foldl_maxf_cases rowRightmost rows 0 with hM | ⟨row, hrow, hM⟩
    · rw [rightmostColFold] at hMz
      rw [hM] at hMz
      cases hMz
    · rw [rightmostColFold] at hMz
      rw [hMz] at hM
      have hnb : isBlank (row.getD m "") = false :=
        rowRightmost_nonblank row m hM.symm
      have hcm : colNonblank rows m = true :=
        (colNonblank_exists rows m).mpr ⟨row, hrow, hnb⟩
      have hmlen : m < maxRowLen rows := by
        have h1 := nonblank_lt_length row m hnb
        have h2 := foldl_maxf_mem List.length rows 0 row hrow
        rw [maxRowLen]
        omega
      have hupper : ∀ j, m < j → colNonblank rows j = false := by
        intro j hj
        refine colNonblank_false_of_fold_le rows (m + 1) ?_ j hj
        intro row' hrow'
        have := hub row' hrow'
        rw [rightmostColFold, hMz] at this
        exact this
      exact (lastNonblankCol_of_max rows m hcm hmlen hupper).symm

/-! ## C10 lemma: single-character replacement is a pointwise expansion -/

theorem replaceAll_single (x : Char) (new : List Char) :
    ∀ s : List Char,
      replaceAll s [x] new =
        (s.map (fun c => if c = x then new else [c])).flatten := by
  intro s
  induction s with
  | nil => rw [replaceAll]; rfl
  | cons c cs ih =>
    rw [replaceAll]
    by_cases hc : c = x
    · subst hc
      rw [dif_pos]
      · simp only [List.map_cons, List.flatten_cons, List.length_cons,
          List.length_nil, List.drop_succ_cons, List.drop_zero]
        rw [ih]
        simp
      · constructor
        · simp
        · simp [startsWithL]
    · rw [dif_neg]
      · simp only [List.map_cons, List.flatten_cons, if_neg hc]
        rw [ih]
        rfl
      · intro hcon
        have := hcon.2
        simp [startsWithL] at this
        exact hc this

/-! ## Association-list lemmas -/

theorem lookupA_append (l1 l2 : List (String × String)) (k : String) :
    lookupA (l1 ++ l2) k =
      match lookupA l1 k with
      | some v => some v
      | none => lookupA l2 k := by
  induction l1 with
  | nil => simp [lookupA]
  | cons p rest ih =>
    obtain ⟨k', v⟩ := p
    by_cases h : k' = k
    · simp [lookupA, h]
    · simp only [List.cons_append, lookupA, if_neg h]
      exact ih

theorem lookupA_eraseKeyA_self (l : List (String × String)) (k : String) :
    lookupA (eraseKeyA l k) k = none := by
  induction l with
  | nil => rfl
  | cons p rest ih =>
    obtain ⟨k', v⟩ := p
    by_cases h : k' = k
    · rw [eraseKeyA, if_pos h]
      exact ih
    · rw [eraseKeyA, if_neg h]
      simp only [lookupA, if_neg h]
      exact ih

theorem lookupA_eraseKeyA_ne (l : List (String × String)) (k k' : String)
    (h : k' ≠ k) : lookupA (eraseKeyA l k) k' = lookupA l k' := by
  induction l with
  | nil => rfl
  | cons p rest ih =>
    obtain ⟨a, v⟩ := p
    by_cases ha : a = k
    · have ha' : ¬ (a = k') := fun hc => h (ha ▸ hc ▸ rfl)
      rw [eraseKeyA, if_pos ha]
      simp only [lookupA, if_neg ha']
      exact ih
    · rw [eraseKeyA, if_neg ha]
      by_cases ha' : a = k'
      · simp only [lookupA, if_pos ha']
      · simp only [lookupA, if_neg ha']
        exact ih

theorem lookupA_insertA_self (l : List (String × String)) (k v : String) :
    lookupA (insertA l k v) k = some v := by
  rw [insertA, lookupA_append, lookupA_eraseKeyA_self]
  simp [lookupA]

theorem lookupA_insertA_ne (l : List (String × String)) (k v k' : String)
    (h : k' ≠ k) : lookupA (insertA l k v) k' = lookupA l k' := by
  rw [insertA, lookupA_append, lookupA_eraseKeyA_ne l k k' h]
  cases hl : lookupA l k' with
  | some w => rfl
  | none =>
    have hk : ¬ (k = k') := fun hc => h hc.symm
    simp [lookupA, hk]

theorem lookupA_isSome_of_mem (l : List (String × String)) (k v : String)
    (h : (k, v) ∈ l) : (lookupA l k).isSome = true := by
  induction l with
  | nil => cases h
  | cons p rest ih =>
    obtain ⟨a, w⟩ := p
    rcases List.mem_cons.mp h with hh | hh
    · cases hh
      simp [lookupA]
    · by_cases ha : a = k
      · simp [lookupA, ha]
      · simpa [lookupA, ha] using ih hh

theorem mem_eraseKeyA (l : List (String × String)) (k : String) (p : String × String) :
    p ∈ eraseKeyA l k ↔ p ∈ l ∧ p.1 ≠ k := by
  induction l with
  | nil => simp [eraseKeyA]
  | cons q rest ih =>
    obtain ⟨a, v⟩ := q
    by_cases ha : a = k
    · rw [eraseKeyA, if_pos ha, ih]
      constructor
      · rintro ⟨hm, hne⟩
        exact ⟨List.mem_cons_of_mem _ hm, hne⟩
      · rintro ⟨hm, hne⟩
        rcases List.mem_cons.mp hm with he | hm'
        · exfalso
          subst he
          exact hne (by simpa using ha)
        · exact ⟨hm', hne⟩
    · rw [eraseKeyA, if_neg ha]
      constructor
      · intro hm
        rcases List.mem_cons.mp hm with he | hm'
        · subst he
          exact ⟨List.mem_cons_self _ _, by simpa using ha⟩
        · obtain ⟨h1, h2⟩ := ih.mp hm'
          exact ⟨List.mem_cons_of_mem _ h1, h2⟩
      · rintro ⟨hm, hne⟩
        rcases List.mem_cons.mp hm with he | hm'
        · subst he
          exact List.mem_cons_self _ _
        · exact List.mem_cons_of_mem _ (ih.mpr ⟨hm', hne⟩)

theorem mem_insertA (l : List (String × String)) (k v : String) (p : String × String) :
    p ∈ insertA l k v ↔ (p ∈ l ∧ p.1 ≠ k) ∨ p = (k, v) := by
  simp [insertA, mem_eraseKeyA]

theorem mem_eraseS (l : List String) (k x : String) :
    x ∈ eraseS l k ↔ x ∈ l ∧ x ≠ k := by
  induction l with
  | nil => simp [eraseS]
  | cons a rest ih =>
    by_cases ha : a = k
    · rw [eraseS, if_pos ha, ih]
      constructor
      · rintro ⟨hm, hne⟩
        exact ⟨List.mem_cons_of_mem _ hm, hne⟩
      · rintro ⟨hm, hne⟩
        rcases List.mem_cons.mp hm with he | hm'
        · exact absurd (he.trans ha) hne
        · exact ⟨hm', hne⟩
    · rw [eraseS, if_neg ha]
      constructor
      · intro hm
        rcases List.mem_cons.mp hm with he | hm'
        · subst he
          exact ⟨List.mem_cons_self _ _, ha⟩
        · obtain ⟨h1, h2⟩ := ih.mp hm'
          exact ⟨List.mem_cons_of_mem _ h1, h2⟩
      · rintro ⟨hm, hne⟩
        rcases List.mem_cons.mp hm with he | hm'
        · subst he
          exact List.mem_cons_self _ _
        · exact List.mem_cons_of_mem _ (ih.mpr ⟨hm', hne⟩)

theorem mem_insertS (l : List String) (k x : String) :
    x ∈ insertS l k ↔ (x ∈ l ∧ x ≠ k) ∨ x = k := by
  simp [insertS, mem_eraseS]

theorem contains_eq_false_iff (l : List String) (x : String) :
    l.contains x = false ↔ x ∉ l := by
  simp

/-! ## Session invariant preservation -/

theorem exclusiveInv_confirm (s : Session) (col target : String)
    (h : ExclusiveInv s) : ExclusiveInv (confirmMapping s col target) := by
  intro p hp
  simp only [confirmMapping] at hp ⊢
  rw [contains_eq_false_iff]
  intro hcon
  obtain ⟨hin, hne2⟩ := (mem_eraseS s.ignored col p.1).mp hcon
  rcases (mem_insertA s.mappings col target p).mp hp with ⟨hmem, _⟩ | heq
  · have := h p hmem
    rw [contains_eq_false_iff] at this
    exact this hin
  · subst heq
    exact hne2 rfl

theorem exclusiveInv_toggle (s : Session) (col : String)
    (h : ExclusiveInv s) : ExclusiveInv (toggleIgnore s col) := by
  rw [toggleIgnore]
  split
  · intro p hp
    simp only at hp ⊢
    rw [contains_eq_false_iff]
    intro hcon
    obtain ⟨hin, _⟩ := (mem_eraseS s.ignored col p.1).mp hcon
    obtain ⟨hmem, _⟩ := (mem_eraseKeyA s.mappings col p).mp hp
    have := h p hmem
    rw [contains_eq_false_iff] at this
    exact this hin
  · intro p hp
    simp only at hp ⊢
    rw [contains_eq_false_iff]
    intro hcon
    obtain ⟨hmem, hne⟩ := (mem_eraseKeyA s.mappings col p).mp hp
    rcases (mem_insertS s.ignored col p.1).mp hcon with ⟨hin, _⟩ | heq
    · have := h p hmem
      rw [contains_eq_false_iff] at this
      exact this hin
    · exact hne heq

theorem exclusiveInv_suggest (s : Session) (msgs : List (String × String))
    (h : ExclusiveInv s) : ExclusiveInv (applySuggestions s msgs) := h

theorem autoMapPass_fold_mem (ig : List String) (targets : List String) :
    ∀ (scanned : List String) (acc : List (String × String)),
      (∀ p ∈ acc, ig.contains p.1 = false) →
      ∀ p ∈ scanned.foldl (fun acc col =>
          if (lookupA acc col).isSome then acc
          else if ig.contains col then acc
          else if targets.contains col then insertA acc col col
          else acc) acc,
        ig.contains p.1 = false := by
  intro scanned
  induction scanned with
  | nil => intro acc hacc; exact hacc
  | cons c rest ih =>
    intro acc hacc
    simp only [List.foldl_cons]
    apply ih
    by_cases h1 : (lookupA acc c).isSome = true
    · rw [if_pos h1]; exact hacc
    · rw [if_neg h1]
      by_cases h2 : ig.contains c = true
      · rw [if_pos h2]; exact hacc
      · rw [if_neg h2]
        by_cases h3 : targets.contains c = true
        · rw [if_pos h3]
          intro p hp
          rcases (mem_insertA acc c c p).mp hp with ⟨hmem, _⟩ | heq
          · exact hacc p hmem
          · subst heq
            simpa using h2
        · rw [if_neg h3]; exact hacc

theorem exclusiveInv_automap (s : Session) (scanned targets : List String)
    (h : ExclusiveInv s) : ExclusiveInv (autoMapPass s scanned targets) := by
  intro p hp
  exact autoMapPass_fold_mem s.ignored targets scanned s.mappings h p hp

theorem exclusiveInv_of_reachable (s : Session) (h : SessionReachable s) :
    ExclusiveInv s := by
  induction h with
  | init => intro p hp; cases hp
  | step _ hstep ih =>
    cases hstep with
    | confirm col target => exact exclusiveInv_confirm _ col target ih
    | toggle col => exact exclusiveInv_toggle _ col ih
    | suggest msgs => exact exclusiveInv_suggest _ msgs ih
    | automap scanned targets => exact exclusiveInv_automap _ scanned targets ih

/-! ## Auto-map pass: behaviour on individual columns -/

theorem autoMap_fold_some (ig targets : List String) :
    ∀ (scanned : List String) (acc : List (String × String)) (col t : String),
      lookupA acc col = some t →
      lookupA (scanned.foldl (fun acc col =>
          if (lookupA acc col).isSome then acc
          else if ig.contains col then acc
          else if targets.contains col then insertA acc col col
          else acc) acc) col = some t := by
  intro scanned
  induction scanned with
  | nil => intro acc col t h; exact h
  | cons c rest ih =>
    intro acc col t h
    simp only [List.foldl_cons]
    apply ih
    by_cases h1 : (lookupA acc c).isSome = true
    · rw [if_pos h1]; exact h
    · rw [if_neg h1]
      by_cases h2 : ig.contains c = true
      · rw [if_pos h2]; exact h
      · rw [if_neg h2]
        by_cases h3 : targets.contains c = true
        · rw [if_pos h3]
          by_cases hc : col = c
          · subst hc
            rw [h] at h1
            simp at h1
          · rw [lookupA_insertA_ne acc c c col hc]
            exact h
        · rw [if_neg h3]; exact h

theorem autoMap_fold_cases (ig targets : List String) :
    ∀ (scanned : List String) (acc : List (String × String)) (col : String),
      lookupA (scanned.foldl (fun acc col =>
          if (lookupA acc col).isSome then acc
          else if ig.contains col then acc
          else if targets.contains col then insertA acc col col
          else acc) acc) col = lookupA acc col ∨
      (lookupA acc col = none ∧ ig.contains col = false ∧
        targets.contains col = true ∧ col ∈ scanned ∧
        lookupA (scanned.foldl (fun acc col =>
          if (lookupA acc col).isSome then acc
          else if ig.contains col then acc
          else if targets.contains col then insertA acc col col
          else acc) acc) col = some col) := by
  intro scanned
  induction scanned with
  | nil => intro acc col; left; rfl
  | cons c rest ih =>
    intro acc col
    simp only [List.foldl_cons]
    by_cases hlk : (lookupA acc c).isSome = true
    · rw [if_pos hlk]
      rcases ih acc col with h | ⟨h1, h2, h3, h4, h5⟩
      · left; exact h
      · right; exact ⟨h1, h2, h3, List.mem_cons_of_mem c h4, h5⟩
    · rw [if_neg hlk]
      by_cases hig : ig.contains c = true
      · rw [if_pos hig]
        rcases ih acc col with h | ⟨h1, h2, h3, h4, h5⟩
        · left; exact h
        · right; exact ⟨h1, h2, h3, List.mem_cons_of_mem c h4, h5⟩
      · rw [if_neg hig]
        by_cases htg : targets.contains c = true
        · rw [if_pos htg]
          by_cases hc : col = c
          · subst hc
            right
            have hnone : lookupA acc col = none := by
              cases h : lookupA acc col
              · rfl
              · rw [h] at hlk; simp at hlk
            refine ⟨hnone, by simpa using hig, htg, List.mem_cons_self col rest, ?_⟩
            exact autoMap_fold_some ig targets rest (insertA acc col col) col col
              (lookupA_insertA_self acc col col)
          · rcases ih (insertA acc c c) col with h | ⟨h1, h2, h3, h4, h5⟩
            · rw [lookupA_insertA_ne acc c c col hc] at h
              left; exact h
            · rw [lookupA_insertA_ne acc c c col hc] at h1
              right; exact ⟨h1, h2, h3, List.mem_cons_of_mem c h4, h5⟩
        · rw [if_neg htg]
          rcases ih acc col with h | ⟨h1, h2, h3, h4, h5⟩
          · left; exact h
          · right; exact ⟨h1, h2, h3, List.mem_cons_of_mem c h4, h5⟩

theorem autoMap_fold_complete (ig targets : List String) :
    ∀ (scanned : List String) (acc : List (String × String)) (col : String),
      col ∈ scanned → ig.contains col = false → targets.contains col = true →
      lookupA (scanned.foldl (fun acc col =>
          if (lookupA acc col).isSome then acc
          else if ig.contains col then acc
          else if targets.contains col then insertA acc col col
          else acc) acc) col ≠ none := by
  intro scanned
  induction scanned with
  | nil => intro acc col hmem; cases hmem
  | cons c rest ih =>
    intro acc col hmem hig htg
    simp only [List.foldl_cons]
    rcases List.mem_cons.mp hmem with hcol | hcol
    · subst hcol
      by_cases hlk : (lookupA acc col).isSome = true
      · rw [if_pos hlk]
        obtain ⟨t, ht⟩ := Option.isSome_iff_exists.mp hlk
        rw [autoMap_fold_some ig targets rest acc col t ht]
        simp
      · rw [if_neg hlk]
        have hig' : ¬ (ig.contains col = true) := by
          rw [hig]; simp
        rw [if_neg hig', if_pos htg]
        rw [autoMap_fold_some ig targets rest (insertA acc col col) col col
          (lookupA_insertA_self acc col col)]
        simp
    · -- col occurs later in the list; whatever happens at c, recurse
      by_cases h1 : (lookupA acc c).isSome = true
      · rw [if_pos h1]
        exact ih _ col hcol hig htg
      · rw [if_neg h1]
        by_cases h2 : ig.contains c = true
        · rw [if_pos h2]
          exact ih _ col hcol hig htg
        · rw [if_neg h2]
          by_cases h3 : targets.contains c = true
          · rw [if_pos h3]
            exact ih _ col hcol hig htg
          · rw [if_neg h3]
            exact ih _ col hcol hig htg

/-! ## Claim theorems: C2, C6, C8, C10 -/

/-- C2: for every sheet, `DetectHeaderRow` returns the 1-based index of
the first row (top-to-bottom) with non-blank text in the single
rightmost column index containing non-blank text anywhere in the sheet
(the spec-worded `detectHeaderRowSpec`); a sheet with no rows, or with
no non-blank cell anywhere, yields 1. -/
theorem claim_C2_detect_header_row (rows : List (List String)) :
    detectHeaderRow rows = detectHeaderRowSpec rows ∧
    detectHeaderRow ([] : List (List String)) = 1 ∧
    ((∀ row ∈ rows, ∀ cell ∈ row, isBlank cell = true) → detectHeaderRow rows = 1) := by
  refine ⟨?_, rfl, ?_⟩
  · rw [detectHeaderRow, detectHeaderRowSpec, rightmostColFold_eq_lastNonblankCol]
  · intro hall
    have hrr : ∀ row ∈ rows, rowRightmost row = 0 := by
      intro row hrow
      cases h : rowRightmost row with
      | zero => rfl
      | succ r =>
        have hnb := rowRightmost_nonblank row r h
        have hlt := nonblank_lt_length row r hnb
        rw [List.getD_eq_getElem row "" hlt] at hnb
        have := hall row hrow (row[r]) (List.getElem_mem hlt)
        rw [this] at hnb
        cases hnb
    have hfold : rightmostColFold rows = 0 := by
      rcases foldl_maxf_cases rowRightmost rows 0 with h | ⟨row, hrow, h⟩
      · exact h
      · rw [rightmostColFold, h, hrr row hrow]
    rw [detectHeaderRow]
    split
    · rfl
    · simp only [hfold]
      simp

/-- Witness for C2 at a concrete all-blank sheet. -/
theorem claim_C2_witness :
    (∀ row ∈ ([["", "  "], [""]] : List (List String)), ∀ cell ∈ row, isBlank cell = true) ∧
    detectHeaderRow [["", "  "], [""]] = 1 :=
  ⟨by decide, (claim_C2_detect_header_row [["", "  "], [""]]).2.2 (by decide)⟩

/-- C10: the row-placeholder substitution of column-wide formula replay
is a blind character replacement — the replayed formula equals the
template with every occurrence of the character 'n' (anywhere in the
string, including inside function names, sheet names or text literals)
replaced by the decimal representation of the destination row, and a
template containing no 'n' is replayed verbatim into every data row. -/
theorem claim_C10_adjust_formula (f : String) (r : Nat) :
    (adjustFormulaForRow f r).data =
      (f.data.map (fun c => if c = 'n' then Nat.toDigits 10 r else [c])).flatten ∧
    ('n' ∉ f.data → adjustFormulaForRow f r = f) := by
  constructor
  · rw [adjustFormulaForRow]
    exact replaceAll_single 'n' (Nat.toDigits 10 r) f.data
  · intro hn
    rw [adjustFormulaForRow, replaceAll_single 'n' (Nat.toDigits 10 r) f.data]
    have : ∀ l : List Char, 'n' ∉ l →
        (l.map (fun c => if c = 'n' then Nat.toDigits 10 r else [c])).flatten = l := by
      intro l
      induction l with
      | nil => intro _; rfl
      | cons c cs ih =>
        intro h
        have hc : ¬ (c = 'n') := fun hcc => h (hcc ▸ List.mem_cons_self c cs)
        simp only [List.map_cons, List.flatten_cons, if_neg hc]
        rw [ih (fun hm => h (List.mem_cons_of_mem c hm))]
        rfl
    rw [this f.data hn]

/-- Witness for C10: a template with no 'n' is replayed verbatim. -/
theorem claim_C10_witness :
    'n' ∉ ("=SUM(A:A)+B3" : String).data ∧
    adjustFormulaForRow "=SUM(A:A)+B3" 7 = "=SUM(A:A)+B3" :=
  ⟨by decide, (claim_C10_adjust_formula "=SUM(A:A)+B3" 7).2 (by decide)⟩

/-! ## Lemmas for the rewrite pipeline -/

theorem foldl_append_filterMap (g : Nat → String) :
    ∀ (l : List Nat) (init : List (Nat × String)),
      l.foldl (fun acc idx => if g idx ≠ "" then acc ++ [(idx, g idx)] else acc) init =
        init ++ l.filterMap (fun idx => if g idx ≠ "" then some (idx, g idx) else none) := by
  intro l
  induction l with
  | nil => intro init; simp
  | cons x xs ih =>
    intro init
    simp only [List.foldl_cons, List.filterMap_cons]
    by_cases hx : g x ≠ ""
    · rw [if_pos hx, if_pos hx, ih, List.append_assoc]
      rfl
    · rw [if_neg hx, if_neg hx, ih]

theorem colFormula?_ne_none (job : FormatJob) (i : Nat) :
    colFormula? (colFormulasOf job) i ≠ none ↔
      (i < (getColumnHeaders job.targetRows).length ∧
        formulaAt job.targetFormulas i 2 ≠ "") := by
  rw [colFormulasOf, detectColumnFormulas,
    foldl_append_filterMap (fun idx => formulaAt job.targetFormulas idx 2)]
  rw [colFormula?]
  rw [Ne, Option.map_eq_none', ← Ne, ← Option.isSome_iff_ne_none]
  rw [List.find?_isSome]
  constructor
  · rintro ⟨e, he, hei⟩
    rw [List.nil_append] at he
    obtain ⟨idx, hidx, hsome⟩ := List.mem_filterMap.mp he
    by_cases hgx : formulaAt job.targetFormulas idx 2 ≠ ""
    · rw [if_pos hgx] at hsome
      cases hsome
      have : idx = i := by simpa using hei
      subst this
      exact ⟨List.mem_range.mp hidx, hgx⟩
    · rw [if_neg hgx] at hsome
      cases hsome
  · rintro ⟨hi, hf⟩
    refine ⟨(i, formulaAt job.targetFormulas i 2), ?_, by simp⟩
    rw [List.nil_append]
    exact List.mem_filterMap.mpr ⟨i, List.mem_range.mpr hi, if_pos hf⟩

/-! ## Claim theorems: C1 and C3 -/

/-- C1: for every rewrite invocation of one input sheet, if at least
one soft error (a "no mapping for …" or "mapped column … not found in
input" message, the only strings ever appended to the error list) was
recorded while processing the target columns, then the rewrite fails,
no output is saved for the sheet, and the pristine on-disk bytes of the
original input file are copied into the quarantine directory under the
input's basename (the in-memory cell edits are never flushed to disk on
this path, so the copy is byte-identical to the original). -/
theorem claim_C1_quarantine_on_error (job : FormatJob) (outputPath : String)
    (h : (formatSheet job outputPath).errors ≠ []) :
    (formatSheet job outputPath).success = false ∧
    (formatSheet job outputPath).savedOutput = none ∧
    (formatSheet job outputPath).quarantined =
      some (quarantinePath job.inputPath, job.inputBytes) := by
  by_cases hc : (processAllColumns job (usedRows job) (getColumnHeaders job.targetRows)
      (colFormulasOf job)).2 = []
  · exfalso
    apply h
    show (formatSheet job outputPath).errors = []
    simp only [formatSheet]
    rw [if_pos hc]
  · refine ⟨?_, ?_, ?_⟩
    · show (formatSheet job outputPath).success = false
      simp only [formatSheet]
      rw [if_neg hc]
    · show (formatSheet job outputPath).savedOutput = none
      simp only [formatSheet]
      rw [if_neg hc]
    · show (formatSheet job outputPath).quarantined = _
      simp only [formatSheet]
      rw [if_neg hc]

/-- Witness for C1: the specification's own scenario — target columns
`[ID, Name, Amount]` with `Amount` unmapped.  One soft error is
recorded, the rewrite fails, nothing is saved, and the quarantine copy
carries the original bytes under the input's basename. -/
theorem claim_C1_witness :
    (formatSheet sampleJobC1 "data/results/input-Sheet1.xlsx").errors =
      ["input.xlsx:Sheet1:: no mapping for " ++ squote ++ "Amount" ++ squote] ∧
    (formatSheet sampleJobC1 "data/results/input-Sheet1.xlsx").success = false ∧
    (formatSheet sampleJobC1 "data/results/input-Sheet1.xlsx").savedOutput = none ∧
    (formatSheet sampleJobC1 "data/results/input-Sheet1.xlsx").quarantined =
      some ("data/problematic/input.xlsx", [1, 2, 3, 4]) := by
  have h := claim_C1_quarantine_on_error sampleJobC1 "data/results/input-Sheet1.xlsx"
    (by decide)
  exact ⟨by decide, h.1, h.2.1, h.2.2.trans (by decide)⟩

/-- C3 as stated is false on the code: in `sampleJobC3` the target's
header row is detected at row 2 and a formula sits in the cell
immediately below that header (row 3), and the input has a data row
below its header; the claim then requires a detected template and a
blank-row insertion, but the code inspects only the fixed absolute row
2, detects nothing, and inserts nothing. -/
theorem claim_C3_counterexample :
    detectHeaderRow sampleJobC3.targetRows = 2 ∧
    claimTemplateDetected sampleJobC3 0 = true ∧
    0 < inputDataRowCount sampleJobC3 ∧
    colFormulasOf sampleJobC3 = [] ∧
    usedRows sampleJobC3 = sampleJobC3.inputRows := by decide

/-- C3 (amended): a column-wide template is detected for target column
i exactly when i is within the target headers and the target cell in
the fixed absolute row 2 of that column holds a formula — this is the
row immediately below the target's header only when the header is
detected at row 1; whenever at least one template is detected and the
input sheet has at least two rows in total, exactly one blank row is
inserted at absolute row 2 (immediately below the first row) before
any cell is written (the write phase `processAllColumns` consumes the
post-insertion rows `usedRows`), and otherwise the rows are used
unchanged. -/
theorem claim_C3_amended_row2_template (job : FormatJob) :
    (∀ i, colFormula? (colFormulasOf job) i ≠ none ↔
      (i < (getColumnHeaders job.targetRows).length ∧
        formulaAt job.targetFormulas i 2 ≠ "")) ∧
    (colFormulasOf job ≠ [] ∧ 2 ≤ job.inputRows.length →
      usedRows job = insertRowAt2 job.inputRows ∧
      (usedRows job).length = job.inputRows.length + 1 ∧
      (usedRows job).getD 1 [] = []) ∧
    (¬ (colFormulasOf job ≠ [] ∧ 2 ≤ job.inputRows.length) →
      usedRows job = job.inputRows) := by
  refine ⟨colFormula?_ne_none job, ?_, ?_⟩
  · rintro ⟨hcf, hlen⟩
    have hcond : colFormulasOf job ≠ [] ∧ hasExistingData job.inputRows = true := by
      refine ⟨hcf, ?_⟩
      rw [hasExistingData]
      exact decide_eq_true hlen
    rw [usedRows, if_pos hcond]
    refine ⟨rfl, ?_, ?_⟩
    · rw [insertRowAt2]
      simp only [List.length_append, List.length_take, List.length_drop,
        List.length_cons, List.length_nil]
      omega
    · cases hrows : job.inputRows with
      | nil => rw [hrows] at hlen; simp at hlen
      | cons r rest => rfl
  · intro hcond
    rw [usedRows, if_neg]
    intro hcontr
    apply hcond
    refine ⟨hcontr.1, ?_⟩
    have := hcontr.2
    rw [hasExistingData] at this
    exact of_decide_eq_true this

/-- Witness for the amended C3: a job with a column template in target
row 2 and a two-row input gets exactly one blank row inserted at row
2. -/
theorem claim_C3_witness :
    colFormulasOf sampleJobC3b ≠ [] ∧ 2 ≤ sampleJobC3b.inputRows.length ∧
    usedRows sampleJobC3b = insertRowAt2 sampleJobC3b.inputRows ∧
    (usedRows sampleJobC3b).length = sampleJobC3b.inputRows.length + 1 :=
  have h := (claim_C3_amended_row2_template sampleJobC3b).2.1 ⟨by decide, by decide⟩
  ⟨by decide, by decide, h.1, h.2.1⟩

set_option maxRecDepth 8000 in
/-- C4: for every input cell value copied into a mapped target column
without a target formula: if the trimmed string parses as a base-10
integer (int64) it is written as an integer; otherwise if it parses as
a floating-point number it is written as a float and the two-decimal
display format is applied to that cell; otherwise the original string
is written unchanged.  In particular "12.5" is written as a float with
the two-decimal format applied. -/
theorem claim_C4_smart_numeric (v : String) :
    (∀ i, goParseInt64 (trimSpace v.data) = some i →
      setCellValueSmart v = { value := GoCellValue.intVal i, twoDecimalFmt := false }) ∧
    (goParseInt64 (trimSpace v.data) = none →
      goParseFloatOk (trimSpace v.data) = true →
      setCellValueSmart v =
        { value := GoCellValue.floatVal (String.mk (trimSpace v.data)),
          twoDecimalFmt := true }) ∧
    (goParseInt64 (trimSpace v.data) = none →
      goParseFloatOk (trimSpace v.data) = false →
      setCellValueSmart v = { value := GoCellValue.strVal v, twoDecimalFmt := false }) ∧
    setCellValueSmart "12.5" =
      { value := GoCellValue.floatVal "12.5", twoDecimalFmt := true } := by
  refine ⟨?_, ?_, ?_, by decide⟩
  · intro i hi
    cases h : trimSpace v.data with
    | nil =>
      rw [h] at hi
      simp [goParseInt64] at hi
    | cons a l =>
      rw [h] at hi
      simp [setCellValueSmart, parseNumericValue, h, hi]
  · intro hnone hfl
    cases h : trimSpace v.data with
    | nil =>
      rw [h] at hfl
      exact absurd hfl (by decide)
    | cons a l =>
      rw [h] at hnone hfl
      simp [setCellValueSmart, parseNumericValue, h, hnone, hfl]
  · intro hnone hfl
    cases h : trimSpace v.data with
    | nil =>
      simp [setCellValueSmart, parseNumericValue, h]
    | cons a l =>
      rw [h] at hnone hfl
      simp [setCellValueSmart, parseNumericValue, h, hnone, hfl]

set_option maxRecDepth 8000 in
/-- Witness for C4: an integer, a float (two-decimal format applied),
a plain string, and a syntactically valid literal that overflows
float64 (`ParseFloat` returns `ErrRange`, so it stays a string). -/
theorem claim_C4_witness :
    setCellValueSmart " 42 " = { value := GoCellValue.intVal 42, twoDecimalFmt := false } ∧
    setCellValueSmart "12.5" =
      { value := GoCellValue.floatVal "12.5", twoDecimalFmt := true } ∧
    setCellValueSmart "Acme" = { value := GoCellValue.strVal "Acme", twoDecimalFmt := false } ∧
    setCellValueSmart "1e999" =
      { value := GoCellValue.strVal "1e999", twoDecimalFmt := false } :=
  ⟨(claim_C4_smart_numeric " 42 ").1 42 (by decide),
   (claim_C4_smart_numeric "12.5").2.1 (by decide) (by decide),
   (claim_C4_smart_numeric "Acme").2.2.1 (by decide) (by decide),
   (claim_C4_smart_numeric "1e999").2.2.1 (by decide) (by decide)⟩

/-- C6: the exact-name auto-mapping pass never alters a column that
already has an explicit mapping or an ignore flag (wherever those came
from), and it maps a column observed→observed exactly when the column
was unmapped, not ignored, and its (cleaned) name occurs verbatim among
the canonical target columns. -/
theorem claim_C6_automap_precedence (s : Session) (scanned targets : List String)
    (col : String) :
    (autoMapPass s scanned targets).ignored = s.ignored ∧
    (autoMapPass s scanned targets).suggestions = s.suggestions ∧
    (∀ t, lookupA s.mappings col = some t →
      lookupA (autoMapPass s scanned targets).mappings col = some t) ∧
    (s.ignored.contains col = true →
      lookupA (autoMapPass s scanned targets).mappings col = lookupA s.mappings col) ∧
    (lookupA (autoMapPass s scanned targets).mappings col ≠ lookupA s.mappings col →
      lookupA s.mappings col = none ∧ s.ignored.contains col = false ∧
      targets.contains col = true ∧ col ∈ scanned ∧
      lookupA (autoMapPass s scanned targets).mappings col = some col) ∧
    (lookupA s.mappings col = none → s.ignored.contains col = false →
      col ∈ scanned → targets.contains col = true →
      lookupA (autoMapPass s scanned targets).mappings col = some col) := by
  refine ⟨rfl, rfl, ?_, ?_, ?_, ?_⟩
  · intro t ht
    exact autoMap_fold_some s.ignored targets scanned s.mappings col t ht
  · intro hig
    rcases autoMap_fold_cases s.ignored targets scanned s.mappings col with h |
        ⟨_, h2, _, _, _⟩
    · exact h
    · rw [hig] at h2; cases h2
  · intro hne
    rcases autoMap_fold_cases s.ignored targets scanned s.mappings col with h |
        ⟨h1, h2, h3, h4, h5⟩
    · exact absurd h hne
    · exact ⟨h1, h2, h3, h4, h5⟩
  · intro hnone hig hmem htg
    rcases autoMap_fold_cases s.ignored targets scanned s.mappings col with h |
        ⟨_, _, _, _, h5⟩
    · exfalso
      exact autoMap_fold_complete s.ignored targets scanned s.mappings col
        hmem hig htg (h.trans hnone)
    · exact h5

/-- Witness for C6: an unmapped, un-ignored exact match is auto-mapped
to itself; an explicitly mapped column keeps its mapping. -/
theorem claim_C6_witness :
    lookupA (autoMapPass ⟨[("A", "X")], ["B"], []⟩ ["A", "B", "C"] ["C", "A"]).mappings
        "C" = some "C" ∧
    lookupA (autoMapPass ⟨[("A", "X")], ["B"], []⟩ ["A", "B", "C"] ["C", "A"]).mappings
        "A" = some "X" :=
  ⟨(claim_C6_automap_precedence ⟨[("A", "X")], ["B"], []⟩ ["A", "B", "C"] ["C", "A"]
      "C").2.2.2.2.2 (by decide) (by decide) (by decide) (by decide),
   (claim_C6_automap_precedence ⟨[("A", "X")], ["B"], []⟩ ["A", "B", "C"] ["C", "A"]
      "A").2.2.1 "X" (by decide)⟩

/-- C8: in every state of the mapping session reachable by session
operations, no observed column is simultaneously mapped and ignored;
confirming a target mapping removes any ignore flag on the column, and
toggling ignore removes any mapping on the column. -/
theorem claim_C8_exclusivity (s : Session) (h : SessionReachable s) :
    ExclusiveInv s ∧
    (∀ col target, (confirmMapping s col target).ignored.contains col = false) ∧
    (∀ col, lookupA (toggleIgnore s col).mappings col = none) := by
  refine ⟨exclusiveInv_of_reachable s h, ?_, ?_⟩
  · intro col target
    rw [contains_eq_false_iff]
    intro hc
    exact ((mem_eraseS s.ignored col col).mp hc).2 rfl
  · intro col
    rw [toggleIgnore]
    split
    · exact lookupA_eraseKeyA_self s.mappings col
    · exact lookupA_eraseKeyA_self s.mappings col

/-- C7: when the session ends by accepting in the `Confirming` state,
the persisted MappingSet contains exactly one record per confirmed
mapping (target set, ignored false), one per ignored column (target
empty, ignored true), and zero records derived from unconfirmed AI
suggestions — the suggestion overlay is never consulted when saving.
The hypotheses state that the Go maps backing the session have unique
keys and satisfy the mapped/ignored exclusivity invariant of C8. -/
theorem claim_C7_save_confirmed_only (s : Session)
    (hm : (s.mappings.map Prod.fst).Nodup) (hig : s.ignored.Nodup)
    (hdisj : ∀ p ∈ s.mappings, p.1 ∉ s.ignored) :
    ((buildSavedConfig s).mappings.length = s.mappings.length + s.ignored.length) ∧
    (∀ col target, (col, target) ∈ s.mappings →
      (buildSavedConfig s).mappings.count
        { scanned_column := col, target_column := target, is_ignored := false } = 1) ∧
    (∀ col ∈ s.ignored,
      (buildSavedConfig s).mappings.count
        { scanned_column := col, target_column := "", is_ignored := true } = 1) ∧
    (∀ r ∈ (buildSavedConfig s).mappings,
      (r.is_ignored = false ∧ (r.scanned_column, r.target_column) ∈ s.mappings) ∨
      (r.is_ignored = true ∧ r.target_column = "" ∧ r.scanned_column ∈ s.ignored)) ∧
    (∀ col, lookupA s.mappings col = none → col ∉ s.ignored →
      ∀ r ∈ (buildSavedConfig s).mappings, r.scanned_column ≠ col) := by
  have hmnd : s.mappings.Nodup := hm.of_map
  have hfin : Function.Injective
      (fun p : String × String =>
        ({ scanned_column := p.1, target_column := p.2, is_ignored := false } :
          ColumnMapping)) := by
    intro p q hpq
    simp only [ColumnMapping.mk.injEq] at hpq
    exact Prod.ext hpq.1 hpq.2.1
  have hgin : Function.Injective
      (fun c : String =>
        ({ scanned_column := c, target_column := "", is_ignored := true } :
          ColumnMapping)) := by
    intro a b hab
    simpa only [ColumnMapping.mk.injEq, and_true] using hab
  refine ⟨?_, ?_, ?_, ?_, ?_⟩
  · simp [buildSavedConfig]
  · intro col target hmem
    rw [buildSavedConfig]
    simp only [List.count_append]
    have h1 : (s.mappings.map
        (fun p => ({ scanned_column := p.1, target_column := p.2, is_ignored := false } :
          ColumnMapping))).count
        { scanned_column := col, target_column := target, is_ignored := false } = 1 := by
      exact List.count_eq_one_of_mem (hmnd.map hfin)
        (List.mem_map_of_mem _ hmem)
    have h2 : (s.ignored.map
        (fun c => ({ scanned_column := c, target_column := "", is_ignored := true } :
          ColumnMapping))).count
        { scanned_column := col, target_column := target, is_ignored := false } = 0 := by
      rw [List.count_eq_zero]
      intro hc
      obtain ⟨c, _, hcontr⟩ := List.mem_map.mp hc
      simp only [ColumnMapping.mk.injEq] at hcontr
      exact absurd hcontr.2.2 (by decide)
    rw [h1, h2]
  · intro col hmem
    rw [buildSavedConfig]
    simp only [List.count_append]
    have h1 : (s.mappings.map
        (fun p => ({ scanned_column := p.1, target_column := p.2, is_ignored := false } :
          ColumnMapping))).count
        { scanned_column := col, target_column := "", is_ignored := true } = 0 := by
      rw [List.count_eq_zero]
      intro hc
      obtain ⟨c, _, hcontr⟩ := List.mem_map.mp hc
      simp only [ColumnMapping.mk.injEq] at hcontr
      exact absurd hcontr.2.2 (by decide)
    have h2 : (s.ignored.map
        (fun c => ({ scanned_column := c, target_column := "", is_ignored := true } :
          ColumnMapping))).count
        { scanned_column := col, target_column := "", is_ignored := true } = 1 := by
      exact List.count_eq_one_of_mem (hig.map hgin)
        (List.mem_map_of_mem _ hmem)
    rw [h1, h2]
  · intro r hr
    rw [buildSavedConfig] at hr
    rcases List.mem_append.mp hr with hr | hr
    · obtain ⟨p, hp, hpr⟩ := List.mem_map.mp hr
      left
      subst hpr
      exact ⟨rfl, hp⟩
    · obtain ⟨c, hc, hcr⟩ := List.mem_map.mp hr
      right
      subst hcr
      exact ⟨rfl, rfl, hc⟩
  · intro col hnone hnig r hr
    rw [buildSavedConfig] at hr
    rcases List.mem_append.mp hr with hr | hr
    · obtain ⟨p, hp, hpr⟩ := List.mem_map.mp hr
      subst hpr
      intro hcontr
      simp only at hcontr
      subst hcontr
      have := lookupA_isSome_of_mem s.mappings p.1 p.2 hp
      rw [hnone] at this
      cases this
    · obtain ⟨c, hc, hcr⟩ := List.mem_map.mp hr
      subst hcr
      intro hcontr
      simp only at hcontr
      subst hcontr
      exact hnig hc

/-- Witness for C7 at a concrete session: one confirmed mapping, one
ignored column, one unconfirmed suggestion — the saved file has exactly
two records and none for the suggested column. -/
theorem claim_C7_witness :
    ((buildSavedConfig ⟨[("A", "T")], ["B"], [("C", "Z")]⟩).mappings.length = 2) ∧
    (∀ r ∈ (buildSavedConfig ⟨[("A", "T")], ["B"], [("C", "Z")]⟩).mappings,
      r.scanned_column ≠ "C") :=
  have h := claim_C7_save_confirmed_only ⟨[("A", "T")], ["B"], [("C", "Z")]⟩
    (by decide) (by decide) (by decide)
  ⟨h.1, h.2.2.2.2 "C" (by decide) (by decide)⟩

/-- Witness for C8 at a concrete reachable state: ignore a column, then
confirm a mapping for the same column. -/
theorem claim_C8_witness :
    ExclusiveInv (confirmMapping (toggleIgnore emptySession "A") "A" "T") :=
  (claim_C8_exclusivity (confirmMapping (toggleIgnore emptySession "A") "A" "T")
    (SessionReachable.step
      (SessionReachable.step SessionReachable.init (SessionStep.toggle emptySession "A"))
      (SessionStep.confirm (toggleIgnore emptySession "A") "A" "T"))).1

/-! ## Lemmas towards C9: `trimSpace` -/

theorem dropWhile_head_fails {p : Char → Bool} :
    ∀ (l : List Char) (c : Char) (t : List Char), l.dropWhile p = c :: t → p c = false := by
  intro l
  induction l with
  | nil => intro c t h; cases h
  | cons a l' ih =>
    intro c t h
    rw [List.dropWhile_cons] at h
    by_cases ha : p a = true
    · rw [if_pos ha] at h
      exact ih c t h
    · rw [if_neg ha] at h
      cases h
      exact eq_false_of_ne_true ha

theorem dropWhile_of_head_fails {p : Char → Bool} :
    ∀ (l : List Char), (∀ c t, l = c :: t → p c = false) → l.dropWhile p = l := by
  intro l h
  cases l with
  | nil => rfl
  | cons a t =>
    rw [List.dropWhile_cons, if_neg]
    rw [h a t rfl]
    simp

theorem dropWhile_getLast? {p : Char → Bool} :
    ∀ (l : List Char), l.dropWhile p ≠ [] → (l.dropWhile p).getLast? = l.getLast? := by
  intro l
  induction l with
  | nil => intro h; exact absurd rfl h
  | cons a t ih =>
    intro h
    rw [List.dropWhile_cons] at h ⊢
    by_cases ha : p a = true
    · rw [if_pos ha] at h ⊢
      have ht : t ≠ [] := by
        intro hc
        subst hc
        exact h rfl
      rw [ih h]
      cases t with
      | nil => exact absurd rfl ht
      | cons b u => exact List.getLast?_cons_cons.symm
    · rw [if_neg ha]

theorem mem_trimSpace (x : Char) (cs : List Char) (h : x ∈ trimSpace cs) : x ∈ cs := by
  rw [trimSpace] at h
  rw [List.mem_reverse] at h
  have h1 := (List.dropWhile_sublist goIsSpace).mem h
  rw [List.mem_reverse] at h1
  exact (List.dropWhile_sublist goIsSpace).mem h1

theorem trimSpace_infix (cs : List Char) :
    ∃ s t, cs = s ++ trimSpace cs ++ t := by
  have hsuf1 : List.IsSuffix (cs.dropWhile goIsSpace) cs := List.dropWhile_suffix goIsSpace
  obtain ⟨t1, ht1⟩ := hsuf1
  have hsuf2 : List.IsSuffix ((cs.dropWhile goIsSpace).reverse.dropWhile goIsSpace)
      (cs.dropWhile goIsSpace).reverse := List.dropWhile_suffix goIsSpace
  obtain ⟨t2, ht2⟩ := hsuf2
  refine ⟨t1, t2.reverse, ?_⟩
  rw [trimSpace]
  have h6 := congrArg List.reverse ht2
  rw [List.reverse_append, List.reverse_reverse] at h6
  rw [List.append_assoc, h6]
  exact ht1.symm

theorem trimSpace_idem (cs : List Char) : trimSpace (trimSpace cs) = trimSpace cs := by
  rw [trimSpace, trimSpace]
  have h1 : ((cs.dropWhile goIsSpace).reverse.dropWhile goIsSpace).reverse.dropWhile
      goIsSpace = ((cs.dropWhile goIsSpace).reverse.dropWhile goIsSpace).reverse := by
    apply dropWhile_of_head_fails
    intro c t hct
    have hbne : (cs.dropWhile goIsSpace).reverse.dropWhile goIsSpace ≠ [] := by
      intro hc
      rw [hc] at hct
      cases hct
    have h2 : ((cs.dropWhile goIsSpace).reverse.dropWhile goIsSpace).reverse.head? =
        some c := by rw [hct]; rfl
    rw [List.head?_reverse] at h2
    have h3 := dropWhile_getLast? (cs.dropWhile goIsSpace).reverse hbne
    rw [List.getLast?_reverse] at h3
    have h4 : (cs.dropWhile goIsSpace).head? = some c := by rw [← h3, h2]
    cases haa : cs.dropWhile goIsSpace with
    | nil => rw [haa] at h4; cases h4
    | cons d u =>
      rw [haa] at h4
      simp only [List.head?_cons, Option.some.injEq] at h4
      rw [← h4]
      exact dropWhile_head_fails cs d u haa
  rw [h1, List.reverse_reverse]
  have h5 : ((cs.dropWhile goIsSpace).reverse.dropWhile goIsSpace).dropWhile goIsSpace =
      (cs.dropWhile goIsSpace).reverse.dropWhile goIsSpace := by
    apply dropWhile_of_head_fails
    intro c t hct
    exact dropWhile_head_fails (cs.dropWhile goIsSpace).reverse c t hct
  rw [h5]

/-! ## Lemmas towards C9: the tag regexp `<[^>]+>` -/

theorem stripTags_nil : stripTags [] = [] := by
  rw [stripTags]

theorem stripTags_cons_ne (c : Char) (rest : List Char) (h : c ≠ '<') :
    stripTags (c :: rest) = c :: stripTags rest := by
  rw [stripTags, if_neg h]

theorem stripTags_lt_some (rest rest' : List Char) (h : findTag rest = some rest') :
    stripTags ('<' :: rest) = stripTags rest' := by
  rw [stripTags, if_pos rfl]
  split
  · rename_i r heq
    have := h.symm.trans heq
    cases this
    rfl
  · rename_i heq
    rw [heq] at h
    cases h

theorem stripTags_lt_none (rest : List Char) (h : findTag rest = none) :
    stripTags ('<' :: rest) = '<' :: stripTags rest := by
  rw [stripTags, if_pos rfl]
  split
  · rename_i r heq
    rw [heq] at h
    cases h
  · rfl

theorem skipToGt_none_iff : ∀ (l : List Char), skipToGt l = none ↔ '>' ∉ l := by
  intro l
  induction l with
  | nil => simp [skipToGt]
  | cons c t ih =>
    rw [skipToGt]
    by_cases hc : c = '>'
    · rw [if_pos hc]
      subst hc
      simp
    · rw [if_neg hc, ih]
      constructor
      · intro hnm hmem
        rcases List.mem_cons.mp hmem with he | hm
        · exact hc he.symm
        · exact hnm hm
      · intro hnm hm
        exact hnm (List.mem_cons_of_mem c hm)

theorem skipToGt_isSome_iff (l : List Char) : (skipToGt l).isSome = true ↔ '>' ∈ l := by
  rw [Option.isSome_iff_ne_none, Ne, skipToGt_none_iff]
  exact not_not

theorem skipToGt_length : ∀ (l r : List Char), skipToGt l = some r → r.length < l.length := by
  intro l
  induction l with
  | nil => intro r hr; cases hr
  | cons a t ih =>
    intro r hr
    rw [skipToGt] at hr
    by_cases ha : a = '>'
    · rw [if_pos ha] at hr
      cases hr
      simp
    · rw [if_neg ha] at hr
      have := ih r hr
      simp only [List.length_cons]
      omega

theorem findTag_length (l r : List Char) (h : findTag l = some r) : r.length < l.length := by
  cases l with
  | nil => cases h
  | cons a t =>
    rw [findTag] at h
    by_cases ha : a = '>'
    · rw [if_pos ha] at h
      cases h
    · rw [if_neg ha] at h
      have := skipToGt_length t r h
      simp only [List.length_cons]
      omega

theorem skipToGt_mem : ∀ (l r : List Char), skipToGt l = some r → ∀ x ∈ r, x ∈ l := by
  intro l
  induction l with
  | nil => intro r hr; cases hr
  | cons a t ih =>
    intro r hr x hx
    rw [skipToGt] at hr
    by_cases ha : a = '>'
    · rw [if_pos ha] at hr
      cases hr
      exact List.mem_cons_of_mem a hx
    · rw [if_neg ha] at hr
      exact List.mem_cons_of_mem a (ih r hr x hx)

theorem findTag_mem (l r : List Char) (h : findTag l = some r) : ∀ x ∈ r, x ∈ l := by
  cases l with
  | nil => cases h
  | cons a t =>
    rw [findTag] at h
    by_cases ha : a = '>'
    · rw [if_pos ha] at h
      cases h
    · rw [if_neg ha] at h
      intro x hx
      exact List.mem_cons_of_mem a (skipToGt_mem t r h x hx)

theorem exists_first_gt : ∀ (l : List Char), '>' ∈ l →
    ∃ m b, l = m ++ '>' :: b ∧ '>' ∉ m := by
  intro l
  induction l with
  | nil => intro h; cases h
  | cons c t ih =>
    intro h
    by_cases hc : c = '>'
    · subst hc
      exact ⟨[], t, rfl, by simp⟩
    · have hm : '>' ∈ t := by
        rcases List.mem_cons.mp h with he | hm
        · exact absurd he.symm hc
        · exact hm
      obtain ⟨m, b, hl, hnm⟩ := ih hm
      refine ⟨c :: m, b, by rw [List.cons_append, ← hl], ?_⟩
      intro hcon
      rcases List.mem_cons.mp hcon with he | hm2
      · exact hc he.symm
      · exact hnm hm2

theorem findTag_isSome_iff : ∀ (r : List Char),
    (findTag r).isSome = true ↔ ∃ m b, r = m ++ '>' :: b ∧ m ≠ [] ∧ '>' ∉ m := by
  intro r
  cases r with
  | nil =>
    constructor
    · intro h
      cases h
    · rintro ⟨m, b, hl, hne, _⟩
      have := congrArg List.length hl
      simp at this
      cases m with
      | nil => exact absurd rfl hne
      | cons d m' => simp at this; omega
  | cons c t =>
    rw [findTag]
    by_cases hc : c = '>'
    · rw [if_pos hc]
      subst hc
      constructor
      · intro h
        simp at h
      · rintro ⟨m, b, hl, hne, hnm⟩
        cases m with
        | nil => exact absurd rfl hne
        | cons d m' =>
          rw [List.cons_append] at hl
          injection hl with h1 _
          subst h1
          exact absurd (List.mem_cons_self _ _) hnm
    · rw [if_neg hc]
      constructor
      · intro h
        have hmem : '>' ∈ t := (skipToGt_isSome_iff t).mp h
        obtain ⟨m, b, hl, hnm⟩ := exists_first_gt t hmem
        refine ⟨c :: m, b, by rw [List.cons_append, ← hl], by simp, ?_⟩
        intro hcon
        rcases List.mem_cons.mp hcon with he | hm2
        · exact hc he.symm
        · exact hnm hm2
      · rintro ⟨m, b, hl, hne, hnm⟩
        rw [skipToGt_isSome_iff]
        cases m with
        | nil => exact absurd rfl hne
        | cons d m' =>
          rw [List.cons_append] at hl
          injection hl with _ h2
          rw [h2]
          exact List.mem_append_right m' (List.mem_cons_self _ _)

theorem hasTagB_iff : ∀ (cs : List Char),
    hasTagB cs = true ↔
      ∃ a m b, cs = a ++ '<' :: (m ++ '>' :: b) ∧ m ≠ [] ∧ '>' ∉ m := by
  intro cs
  induction cs with
  | nil =>
    rw [hasTagB]
    constructor
    · intro h
      cases h
    · rintro ⟨a, m, b, hl, _, _⟩
      have := congrArg List.length hl
      simp at this
      omega
  | cons c rest ih =>
    rw [hasTagB, Bool.or_eq_true, Bool.and_eq_true, beq_iff_eq]
    constructor
    · rintro (⟨hc, hsome⟩ | hrest)
      · subst hc
        obtain ⟨m, b, hl, hne, hnm⟩ := (findTag_isSome_iff rest).mp hsome
        exact ⟨[], m, b, by rw [List.nil_append, hl], hne, hnm⟩
      · obtain ⟨a, m, b, hl, hne, hnm⟩ := ih.mp hrest
        exact ⟨c :: a, m, b, by rw [List.cons_append, hl], hne, hnm⟩
    · rintro ⟨a, m, b, hl, hne, hnm⟩
      cases a with
      | nil =>
        left
        rw [List.nil_append] at hl
        injection hl with h1 h2
        exact ⟨h1, (findTag_isSome_iff rest).mpr ⟨m, b, h2, hne, hnm⟩⟩
      | cons d a' =>
        right
        rw [List.cons_append] at hl
        injection hl with _ h2
        exact ih.mpr ⟨a', m, b, h2, hne, hnm⟩

theorem hasTagB_of_infix (v w : List Char) (hinf : ∃ s t, w = s ++ v ++ t)
    (h : hasTagB v = true) : hasTagB w = true := by
  obtain ⟨s, t, hw⟩ := hinf
  obtain ⟨a, m, b, hv, hne, hnm⟩ := (hasTagB_iff v).mp h
  refine (hasTagB_iff w).mpr ⟨s ++ a, m, b ++ t, ?_, hne, hnm⟩
  rw [hw, hv]
  simp [List.append_assoc]

theorem hasTagB_suffix (pre w : List Char) (h : hasTagB w = true) :
    hasTagB (pre ++ w) = true :=
  hasTagB_of_infix w (pre ++ w) ⟨pre, [], by simp⟩ h

/-! ## Lemmas towards C9: `stripTags` output is tag-free -/

theorem mem_stripTags_aux (x : Char) :
    ∀ (n : Nat) (cs : List Char), cs.length ≤ n → x ∈ stripTags cs → x ∈ cs := by
  intro n
  induction n with
  | zero =>
    intro cs hlen hx
    cases cs with
    | nil => rw [stripTags_nil] at hx; cases hx
    | cons c rest => simp at hlen
  | succ k ih =>
    intro cs hlen hx
    cases cs with
    | nil => rw [stripTags_nil] at hx; cases hx
    | cons c rest =>
      simp only [List.length_cons] at hlen
      by_cases hc : c = '<'
      · subst hc
        cases hft : findTag rest with
        | some rest' =>
          rw [stripTags_lt_some rest rest' hft] at hx
          have hlt := findTag_length rest rest' hft
          have hmem := ih rest' (by omega) hx
          exact List.mem_cons_of_mem _ (findTag_mem rest rest' hft x hmem)
        | none =>
          rw [stripTags_lt_none rest hft] at hx
          rcases List.mem_cons.mp hx with he | hm
          · subst he
            exact List.mem_cons_self _ _
          · exact List.mem_cons_of_mem _ (ih rest (by omega) hm)
      · rw [stripTags_cons_ne c rest hc] at hx
        rcases List.mem_cons.mp hx with he | hm
        · subst he
          exact List.mem_cons_self _ _
        · exact List.mem_cons_of_mem _ (ih rest (by omega) hm)

theorem mem_stripTags (x : Char) (cs : List Char) (h : x ∈ stripTags cs) : x ∈ cs :=
  mem_stripTags_aux x cs.length cs le_rfl h

theorem stripTags_of_noTag_aux :
    ∀ (n : Nat) (cs : List Char), cs.length ≤ n → hasTagB cs = false →
      stripTags cs = cs := by
  intro n
  induction n with
  | zero =>
    intro cs hlen _
    cases cs with
    | nil => exact stripTags_nil
    | cons c rest => simp at hlen
  | succ k ih =>
    intro cs hlen htag
    cases cs with
    | nil => exact stripTags_nil
    | cons c rest =>
      simp only [List.length_cons] at hlen
      rw [hasTagB, Bool.or_eq_false_iff, Bool.and_eq_false_iff] at htag
      obtain ⟨h1, h2⟩ := htag
      by_cases hc : c = '<'
      · subst hc
        have hft : findTag rest = none := by
          rcases h1 with h1 | h1
          · simp at h1
          · cases hval : findTag rest
            · rfl
            · rw [hval] at h1; cases h1
        rw [stripTags_lt_none rest hft, ih rest (by omega) h2]
      · rw [stripTags_cons_ne c rest hc, ih rest (by omega) h2]

theorem stripTags_of_noTag (cs : List Char) (h : hasTagB cs = false) :
    stripTags cs = cs :=
  stripTags_of_noTag_aux cs.length cs le_rfl h

theorem findTag_none_of_no_gt (r : List Char) (h : '>' ∉ r) : findTag r = none := by
  cases r with
  | nil => rfl
  | cons c t =>
    rw [findTag]
    have hc : c ≠ '>' := by
      intro hcc
      exact h (hcc ▸ List.mem_cons_self c t)
    rw [if_neg (fun hcc => hc hcc)]
    rw [skipToGt_none_iff]
    intro hm
    exact h (List.mem_cons_of_mem c hm)

theorem findTag_stripTags_none (rest : List Char) (h : findTag rest = none) :
    findTag (stripTags rest) = none := by
  cases rest with
  | nil => rw [stripTags_nil]; rfl
  | cons c t =>
    rw [findTag] at h
    by_cases hc : c = '>'
    · subst hc
      rw [stripTags_cons_ne '>' t (by decide)]
      rw [findTag, if_pos rfl]
    · rw [if_neg hc] at h
      have hnt : '>' ∉ t := (skipToGt_none_iff t).mp h
      have hnall : '>' ∉ (c :: t) := by
        intro hm
        rcases List.mem_cons.mp hm with he | hm2
        · exact hc he.symm
        · exact hnt hm2
      apply findTag_none_of_no_gt
      intro hm
      exact hnall (mem_stripTags '>' (c :: t) hm)

theorem hasTagB_stripTags_aux :
    ∀ (n : Nat) (cs : List Char), cs.length ≤ n → hasTagB (stripTags cs) = false := by
  intro n
  induction n with
  | zero =>
    intro cs hlen
    cases cs with
    | nil => rw [stripTags_nil]; rfl
    | cons c rest => simp at hlen
  | succ k ih =>
    intro cs hlen
    cases cs with
    | nil => rw [stripTags_nil]; rfl
    | cons c rest =>
      simp only [List.length_cons] at hlen
      by_cases hc : c = '<'
      · subst hc
        cases hft : findTag rest with
        | some rest' =>
          rw [stripTags_lt_some rest rest' hft]
          have hlt := findTag_length rest rest' hft
          exact ih rest' (by omega)
        | none =>
          rw [stripTags_lt_none rest hft, hasTagB]
          rw [findTag_stripTags_none rest hft]
          rw [ih rest (by omega)]
          simp
      · rw [stripTags_cons_ne c rest hc, hasTagB]
        rw [ih rest (by omega)]
        simp [hc]

theorem hasTagB_stripTags (cs : List Char) : hasTagB (stripTags cs) = false :=
  hasTagB_stripTags_aux cs.length cs le_rfl

/-! ## Lemmas towards C9: `collapseWs` -/

theorem collapseWs_nil : collapseWs [] = [] := by
  rw [collapseWs]

theorem collapseWs_cons_ws (c : Char) (rest : List Char) (h : regexSpace c = true) :
    collapseWs (c :: rest) = ' ' :: collapseWs (rest.dropWhile regexSpace) := by
  rw [collapseWs, if_pos h]

theorem collapseWs_cons_nws (c : Char) (rest : List Char) (h : regexSpace c = false) :
    collapseWs (c :: rest) = c :: collapseWs rest := by
  rw [collapseWs, if_neg]
  rw [h]
  simp

theorem mem_collapseWs_aux (x : Char) :
    ∀ (n : Nat) (l : List Char), l.length ≤ n → x ∈ collapseWs l →
      x = ' ' ∨ (x ∈ l ∧ regexSpace x = false) := by
  intro n
  induction n with
  | zero =>
    intro l hlen hx
    cases l with
    | nil => rw [collapseWs_nil] at hx; cases hx
    | cons c rest => simp at hlen
  | succ k ih =>
    intro l hlen hx
    cases l with
    | nil => rw [collapseWs_nil] at hx; cases hx
    | cons c rest =>
      simp only [List.length_cons] at hlen
      by_cases hc : regexSpace c = true
      · rw [collapseWs_cons_ws c rest hc] at hx
        rcases List.mem_cons.mp hx with he | hm
        · exact Or.inl he
        · have hsub : (rest.dropWhile regexSpace).length ≤ rest.length :=
            (List.dropWhile_sublist _).length_le
          rcases ih (rest.dropWhile regexSpace) (by omega) hm with h | ⟨hmem, hns⟩
          · exact Or.inl h
          · exact Or.inr ⟨List.mem_cons_of_mem c
              ((List.dropWhile_sublist regexSpace).mem hmem), hns⟩
      · rw [collapseWs_cons_nws c rest (by simpa using hc)] at hx
        rcases List.mem_cons.mp hx with he | hm
        · subst he
          exact Or.inr ⟨List.mem_cons_self _ _, by simpa using hc⟩
        · rcases ih rest (by omega) hm with h | ⟨hmem, hns⟩
          · exact Or.inl h
          · exact Or.inr ⟨List.mem_cons_of_mem c hmem, hns⟩

theorem mem_collapseWs (x : Char) (l : List Char) (h : x ∈ collapseWs l) :
    x = ' ' ∨ (x ∈ l ∧ regexSpace x = false) :=
  mem_collapseWs_aux x l.length l le_rfl h

theorem hasTagB_cons_of_rest (c : Char) (rest : List Char)
    (h : hasTagB rest = true) : hasTagB (c :: rest) = true := by
  rw [hasTagB, h]
  simp

theorem hasTagB_cons_of_findTag (rest : List Char)
    (h : (findTag rest).isSome = true) : hasTagB ('<' :: rest) = true := by
  rw [hasTagB, h]
  simp

theorem hasTagB_collapseWs_aux :
    ∀ (n : Nat) (z : List Char), z.length ≤ n →
      hasTagB (collapseWs z) = true → hasTagB z = true := by
  intro n
  induction n with
  | zero =>
    intro z hlen hx
    cases z with
    | nil => rw [collapseWs_nil] at hx; cases hx
    | cons c rest => simp at hlen
  | succ k ih =>
    intro z hlen hx
    cases z with
    | nil => rw [collapseWs_nil] at hx; cases hx
    | cons c rest =>
      simp only [List.length_cons] at hlen
      by_cases hc : regexSpace c = true
      · -- whitespace head: output is ' ' :: collapseWs (dropWhile ws rest)
        rw [collapseWs_cons_ws c rest hc, hasTagB] at hx
        have hsp : ((' ' == '<') &&
            (findTag (collapseWs (rest.dropWhile regexSpace))).isSome) = false := by
          simp
        rw [hsp, Bool.false_or] at hx
        have hsub : (rest.dropWhile regexSpace).length ≤ rest.length :=
          (List.dropWhile_sublist _).length_le
        have h1 := ih (rest.dropWhile regexSpace) (by omega) hx
        have hsuf : List.IsSuffix (rest.dropWhile regexSpace) rest :=
          List.dropWhile_suffix regexSpace
        obtain ⟨pre, hpre⟩ := hsuf
        have h2 : hasTagB rest = true := by
          rw [← hpre]
          exact hasTagB_suffix pre _ h1
        exact hasTagB_cons_of_rest c rest h2
      · have hcn : regexSpace c = false := by simpa using hc
        rw [collapseWs_cons_nws c rest hcn, hasTagB] at hx
        rw [Bool.or_eq_true] at hx
        rcases hx with hx | hx
        · -- a tag starts right at the head: c must be '<'
          rw [Bool.and_eq_true, beq_iff_eq] at hx
          obtain ⟨hceq, hsome⟩ := hx
          subst hceq
          obtain ⟨m, b, hS, hne, hnm⟩ := (findTag_isSome_iff _).mp hsome
          have hgtS : '>' ∈ collapseWs rest := by
            rw [hS]
            exact List.mem_append_right m (List.mem_cons_self _ _)
          have hgt : '>' ∈ rest := by
            rcases mem_collapseWs '>' rest hgtS with h | ⟨hm, _⟩
            · cases h
            · exact hm
          obtain ⟨m', b', hrest, hnm'⟩ := exists_first_gt rest hgt
          have hm'ne : m' ≠ [] := by
            intro hm'
            subst hm'
            rw [List.nil_append] at hrest
            rw [hrest, collapseWs_cons_nws '>' b' (by decide)] at hS
            cases m with
            | nil => exact hne rfl
            | cons d m2 =>
              rw [List.cons_append] at hS
              injection hS with hd _
              rw [hd] at hnm
              exact hnm (List.mem_cons_self _ _)
          have : (findTag rest).isSome = true :=
            (findTag_isSome_iff rest).mpr ⟨m', b', hrest, hm'ne, hnm'⟩
          exact hasTagB_cons_of_findTag rest this
        · exact hasTagB_cons_of_rest c rest (ih rest (by omega) hx)

theorem hasTagB_collapseWs (z : List Char) (h : hasTagB (collapseWs z) = true) :
    hasTagB z = true :=
  hasTagB_collapseWs_aux z.length z le_rfl h

/-! ## Lemmas towards C9: collapsed shape -/

theorem collapseWs_head_ne_space (l : List Char) (c : Char)
    (h : (collapseWs l).head? = some c) (hl : ∀ d t, l = d :: t → regexSpace d = false) :
    c ≠ ' ' := by
  cases l with
  | nil => rw [collapseWs_nil] at h; cases h
  | cons d t =>
    have hd := hl d t rfl
    rw [collapseWs_cons_nws d t hd] at h
    simp only [List.head?_cons, Option.some.injEq] at h
    subst h
    intro hcc
    subst hcc
    rw [show regexSpace ' ' = true by decide] at hd
    cases hd

theorem chain'_collapseWs_aux :
    ∀ (n : Nat) (l : List Char), l.length ≤ n →
      (collapseWs l).Chain' (fun a b => ¬ (a = ' ' ∧ b = ' ')) := by
  intro n
  induction n with
  | zero =>
    intro l hlen
    cases l with
    | nil => rw [collapseWs_nil]; exact List.chain'_nil
    | cons c rest => simp at hlen
  | succ k ih =>
    intro l hlen
    cases l with
    | nil => rw [collapseWs_nil]; exact List.chain'_nil
    | cons c rest =>
      simp only [List.length_cons] at hlen
      by_cases hc : regexSpace c = true
      · rw [collapseWs_cons_ws c rest hc]
        rw [List.chain'_cons']
        constructor
        · intro b hb
          have hb' : b ≠ ' ' := by
            apply collapseWs_head_ne_space (rest.dropWhile regexSpace) b hb
            intro d t hdt
            exact dropWhile_head_fails rest d t hdt
          intro hcon
          exact hb' hcon.2
        · have hsub : (rest.dropWhile regexSpace).length ≤ rest.length :=
            (List.dropWhile_sublist _).length_le
          exact ih (rest.dropWhile regexSpace) (by omega)
      · have hcn : regexSpace c = false := by simpa using hc
        rw [collapseWs_cons_nws c rest hcn]
        rw [List.chain'_cons']
        constructor
        · intro b _
          intro hcon
          rw [hcon.1] at hcn
          rw [show regexSpace ' ' = true by decide] at hcn
          cases hcn
        · exact ih rest (by omega)

theorem collapsed_collapseWs (l : List Char) : Collapsed (collapseWs l) := by
  constructor
  · intro c hc
    rcases mem_collapseWs c l hc with h | ⟨_, h⟩
    · exact Or.inr h
    · exact Or.inl h
  · exact chain'_collapseWs_aux l.length l le_rfl

theorem chain'_of_infix {R : Char → Char → Prop} (v s t w : List Char)
    (hw : w = s ++ v ++ t) (h : w.Chain' R) : v.Chain' R := by
  subst hw
  have h1 := (List.chain'_append.mp h).1
  exact (List.chain'_append.mp h1).2.1

theorem collapsed_trimSpace (w : List Char) (h : Collapsed w) :
    Collapsed (trimSpace w) := by
  obtain ⟨hmem, hchain⟩ := h
  constructor
  · intro c hc
    exact hmem c (mem_trimSpace c w hc)
  · obtain ⟨s, t, hw⟩ := trimSpace_infix w
    exact chain'_of_infix (trimSpace w) s t w hw hchain

theorem collapseWs_of_collapsed_aux :
    ∀ (n : Nat) (l : List Char), l.length ≤ n → Collapsed l → collapseWs l = l := by
  intro n
  induction n with
  | zero =>
    intro l hlen _
    cases l with
    | nil => exact collapseWs_nil
    | cons c rest => simp at hlen
  | succ k ih =>
    intro l hlen hcol
    cases l with
    | nil => exact collapseWs_nil
    | cons c rest =>
      simp only [List.length_cons] at hlen
      obtain ⟨hmem, hchain⟩ := hcol
      have hrest : Collapsed rest := by
        constructor
        · intro d hd
          exact hmem d (List.mem_cons_of_mem c hd)
        · exact (List.chain'_cons'.mp hchain).2
      rcases hmem c (List.mem_cons_self c rest) with hcn | hcsp
      · rw [collapseWs_cons_nws c rest hcn]
        rw [ih rest (by omega) hrest]
      · subst hcsp
        rw [collapseWs_cons_ws ' ' rest (by decide)]
        have hdrop : rest.dropWhile regexSpace = rest := by
          apply dropWhile_of_head_fails
          intro d t hdt
          rcases hmem d (by rw [hdt]; exact List.mem_cons_of_mem _ (List.mem_cons_self d t))
            with h | h
          · exact h
          · exfalso
            have := (List.chain'_cons'.mp hchain).1
            have hhd : d ∈ rest.head? := by
              rw [hdt]
              rfl
            exact this d hhd ⟨rfl, h⟩
        rw [hdrop, ih rest (by omega) hrest]

theorem collapseWs_of_collapsed (l : List Char) (h : Collapsed l) : collapseWs l = l :=
  collapseWs_of_collapsed_aux l.length l le_rfl h

/-! ## Lemmas towards C9: `splitNl` and `firstNonblankLine` -/

theorem splitNl_ne_nil : ∀ (cs : List Char), splitNl cs ≠ [] := by
  intro cs
  induction cs with
  | nil => simp [splitNl]
  | cons c rest ih =>
    rw [splitNl]
    by_cases hc : c = Char.ofNat 10
    · rw [if_pos hc]
      simp
    · rw [if_neg hc]
      cases hs : splitNl rest with
      | nil => exact absurd hs ih
      | cons l0 m0 => simp

theorem splitNl_first_prefix :
    ∀ (cs : List Char) (line : List Char) (more : List (List Char)),
      splitNl cs = line :: more → ∃ post, cs = line ++ post := by
  intro cs
  induction cs with
  | nil =>
    intro line more h
    rw [splitNl] at h
    injection h with h1 _
    exact ⟨[], by rw [← h1]; rfl⟩
  | cons c rest ih =>
    intro line more h
    rw [splitNl] at h
    by_cases hc : c = Char.ofNat 10
    · rw [if_pos hc] at h
      injection h with h1 _
      exact ⟨c :: rest, by rw [← h1]; rfl⟩
    · rw [if_neg hc] at h
      cases hs : splitNl rest with
      | nil => exact absurd hs (splitNl_ne_nil rest)
      | cons l0 m0 =>
        rw [hs] at h
        injection h with h1 _
        obtain ⟨post, hpost⟩ := ih l0 m0 hs
        refine ⟨post, ?_⟩
        rw [← h1, List.cons_append, ← hpost]

theorem mem_splitNl_infix :
    ∀ (cs : List Char) (line : List Char), line ∈ splitNl cs →
      ∃ pre post, cs = pre ++ line ++ post := by
  intro cs
  induction cs with
  | nil =>
    intro line h
    rw [splitNl] at h
    rcases List.mem_cons.mp h with he | hm
    · subst he
      exact ⟨[], [], rfl⟩
    · cases hm
  | cons c rest ih =>
    intro line h
    rw [splitNl] at h
    by_cases hc : c = Char.ofNat 10
    · rw [if_pos hc] at h
      rcases List.mem_cons.mp h with he | hm
      · subst he
        exact ⟨[], c :: rest, rfl⟩
      · obtain ⟨pre, post, hsplit⟩ := ih line hm
        exact ⟨c :: pre, post, by rw [hsplit]; simp⟩
    · rw [if_neg hc] at h
      cases hs : splitNl rest with
      | nil => exact absurd hs (splitNl_ne_nil rest)
      | cons l0 m0 =>
        rw [hs] at h
        rcases List.mem_cons.mp h with he | hm
        · subst he
          obtain ⟨post, hpost⟩ := splitNl_first_prefix rest l0 m0 hs
          exact ⟨[], post, by rw [List.nil_append, List.cons_append, ← hpost]⟩
        · have hline : line ∈ splitNl rest := by
            rw [hs]
            exact List.mem_cons_of_mem l0 hm
          obtain ⟨pre, post, hsplit⟩ := ih line hline
          exact ⟨c :: pre, post, by rw [hsplit]; simp⟩

theorem splitNl_no_nl (cs : List Char) (h : Char.ofNat 10 ∉ cs) : splitNl cs = [cs] := by
  induction cs with
  | nil => rfl
  | cons c rest ih =>
    rw [splitNl]
    have hc : c ≠ Char.ofNat 10 := by
      intro hcc
      exact h (hcc ▸ List.mem_cons_self c rest)
    rw [if_neg hc]
    rw [ih (fun hm => h (List.mem_cons_of_mem c hm))]

theorem firstNonblankLine_cases :
    ∀ (lines : List (List Char)),
      firstNonblankLine lines = [] ∨
      ∃ line ∈ lines, firstNonblankLine lines = trimSpace line ∧
        (trimSpace line).isEmpty = false := by
  intro lines
  induction lines with
  | nil => exact Or.inl rfl
  | cons l rest ih =>
    rw [firstNonblankLine]
    by_cases hl : (trimSpace l).isEmpty = true
    · rw [if_pos hl]
      rcases ih with h | ⟨line, hmem, hval, hne⟩
      · exact Or.inl h
      · exact Or.inr ⟨line, List.mem_cons_of_mem l hmem, hval, hne⟩
    · rw [if_neg hl]
      exact Or.inr ⟨l, List.mem_cons_self l rest, rfl, by simpa using hl⟩

/-! ## Lemmas towards C9: assembly -/

theorem regexSpace_of_goIsSpace_false (c : Char) (h : goIsSpace c = false) :
    regexSpace c = false := by
  cases hr : regexSpace c
  · rfl
  · exfalso
    rw [regexSpace] at hr
    simp only [Bool.or_eq_true, beq_iff_eq] at hr
    rcases hr with ((((h1 | h1) | h1) | h1) | h1) <;>
      (subst h1; exact absurd h (by decide))

theorem dropWhile_trimSpace (cs : List Char) :
    (trimSpace cs).dropWhile goIsSpace = trimSpace cs := by
  rw [trimSpace]
  apply dropWhile_of_head_fails
  intro c t hct
  have hbne : (cs.dropWhile goIsSpace).reverse.dropWhile goIsSpace ≠ [] := by
    intro hc
    rw [hc] at hct
    cases hct
  have h2 : ((cs.dropWhile goIsSpace).reverse.dropWhile goIsSpace).reverse.head? =
      some c := by rw [hct]; rfl
  rw [List.head?_reverse] at h2
  have h3 := dropWhile_getLast? (cs.dropWhile goIsSpace).reverse hbne
  rw [List.getLast?_reverse] at h3
  have h4 : (cs.dropWhile goIsSpace).head? = some c := by rw [← h3, h2]
  cases haa : cs.dropWhile goIsSpace with
  | nil => rw [haa] at h4; cases h4
  | cons d u =>
    rw [haa] at h4
    simp only [List.head?_cons, Option.some.injEq] at h4
    rw [← h4]
    exact dropWhile_head_fails cs d u haa

theorem trimSpace_head_fails (cs : List Char) (c : Char) (t : List Char)
    (h : trimSpace cs = c :: t) : goIsSpace c = false := by
  apply dropWhile_head_fails (trimSpace cs) c t
  rw [dropWhile_trimSpace, h]

theorem mem_dropWhile_of_neg {p : Char → Bool} :
    ∀ (l : List Char) (x : Char), x ∈ l → p x = false → x ∈ l.dropWhile p := by
  intro l
  induction l with
  | nil => intro x hx; cases hx
  | cons c rest ih =>
    intro x hx hp
    rw [List.dropWhile_cons]
    by_cases hpc : p c = true
    · rw [if_pos hpc]
      rcases List.mem_cons.mp hx with he | hm
      · subst he
        rw [hp] at hpc
        cases hpc
      · exact ih x hm hp
    · rw [if_neg hpc]
      exact hx

theorem trimSpace_ne_nil (l : List Char) (x : Char) (hx : x ∈ l)
    (hp : goIsSpace x = false) : trimSpace l ≠ [] := by
  rw [trimSpace]
  intro hcon
  rw [List.reverse_eq_nil_iff] at hcon
  have h1 : x ∈ l.dropWhile goIsSpace := mem_dropWhile_of_neg l x hx hp
  have h2 : x ∈ (l.dropWhile goIsSpace).reverse := List.mem_reverse.mpr h1
  have h3 := mem_dropWhile_of_neg _ x h2 hp
  rw [hcon] at h3
  cases h3

theorem cleanCore_nil : cleanCore ([] : List Char) = [] := by
  simp only [cleanCore]
  rw [show trimSpace ([] : List Char) = [] from rfl, stripTags_nil]
  rfl

theorem cleanCore_idem (cs : List Char) : cleanCore (cleanCore cs) = cleanCore cs := by
  rcases firstNonblankLine_cases (splitNl (stripTags (trimSpace cs))) with hfl |
      ⟨line0, hline0, hflval, hflne⟩
  · have h0 : cleanCore cs = [] := by
      simp only [cleanCore]
      rw [hfl]
      rfl
    rw [h0, cleanCore_nil]
  · have hflempty :
        (firstNonblankLine (splitNl (stripTags (trimSpace cs)))).isEmpty = false := by
      rw [hflval]
      exact hflne
    have hy : cleanCore cs =
        trimSpace (collapseWs (firstNonblankLine (splitNl (stripTags (trimSpace cs))))) := by
      simp only [cleanCore]
      rw [if_neg]
      rw [hflempty]
      simp
    -- abbreviations
    rw [hy]
    rw [hflval] at hy ⊢
    -- the first line is tag-free
    have htagfree_fl : hasTagB (trimSpace line0) = false := by
      cases htag : hasTagB (trimSpace line0)
      · rfl
      · exfalso
        obtain ⟨p1, q1, hSsplit⟩ :=
          mem_splitNl_infix (stripTags (trimSpace cs)) line0 hline0
        obtain ⟨p2, q2, hline0split⟩ := trimSpace_infix line0
        have hinf : ∃ s t, stripTags (trimSpace cs) = s ++ trimSpace line0 ++ t := by
          refine ⟨p1 ++ p2, q2 ++ q1, ?_⟩
          rw [hSsplit]
          conv_lhs => rw [hline0split]
          simp [List.append_assoc]
        have := hasTagB_of_infix (trimSpace line0) (stripTags (trimSpace cs)) hinf htag
        rw [hasTagB_stripTags (trimSpace cs)] at this
        cases this
    have htagfree_col : hasTagB (collapseWs (trimSpace line0)) = false := by
      cases htag : hasTagB (collapseWs (trimSpace line0))
      · rfl
      · exfalso
        have := hasTagB_collapseWs (trimSpace line0) htag
        rw [htagfree_fl] at this
        cases this
    have htagfree_y : hasTagB (trimSpace (collapseWs (trimSpace line0))) = false := by
      cases htag : hasTagB (trimSpace (collapseWs (trimSpace line0)))
      · rfl
      · exfalso
        obtain ⟨s, t, hinf⟩ := trimSpace_infix (collapseWs (trimSpace line0))
        have := hasTagB_of_infix _ _ ⟨s, t, hinf⟩ htag
        rw [htagfree_col] at this
        cases this
    have hnl : Char.ofNat 10 ∉ trimSpace (collapseWs (trimSpace line0)) := by
      intro hm
      have h1 := mem_trimSpace _ _ hm
      rcases mem_collapseWs _ _ h1 with h | ⟨_, h⟩
      · exact absurd h (by decide)
      · exact absurd h (by decide)
    have hyne : trimSpace (collapseWs (trimSpace line0)) ≠ [] := by
      have hflnil : trimSpace line0 ≠ [] := by
        intro hc
        rw [hc] at hflne
        cases hflne
      cases hflc : trimSpace line0 with
      | nil => exact absurd hflc hflnil
      | cons e fl' =>
        have he : goIsSpace e = false := trimSpace_head_fails line0 e fl' hflc
        have hre : regexSpace e = false := regexSpace_of_goIsSpace_false e he
        have hcol : collapseWs (trimSpace line0) = e :: collapseWs fl' := by
          rw [hflc]
          exact collapseWs_cons_nws e fl' hre
        rw [← hflc]
        apply trimSpace_ne_nil (collapseWs (trimSpace line0)) e
        · rw [hcol]
          exact List.mem_cons_self _ _
        · exact he
    have hcollapsed_y : Collapsed (trimSpace (collapseWs (trimSpace line0))) :=
      collapsed_trimSpace _ (collapsed_collapseWs (trimSpace line0))
    -- now evaluate cleanCore on the fixed point
    have hts : trimSpace (trimSpace (collapseWs (trimSpace line0))) =
        trimSpace (collapseWs (trimSpace line0)) := trimSpace_idem _
    have hst : stripTags (trimSpace (collapseWs (trimSpace line0))) =
        trimSpace (collapseWs (trimSpace line0)) :=
      stripTags_of_noTag _ htagfree_y
    have hsp : splitNl (trimSpace (collapseWs (trimSpace line0))) =
        [trimSpace (collapseWs (trimSpace line0))] :=
      splitNl_no_nl _ hnl
    have hyempty : (trimSpace (collapseWs (trimSpace line0))).isEmpty = false := by
      cases hcy : trimSpace (collapseWs (trimSpace line0)) with
      | nil => exact absurd hcy hyne
      | cons a b => rfl
    have hfnb : firstNonblankLine [trimSpace (collapseWs (trimSpace line0))] =
        trimSpace (collapseWs (trimSpace line0)) := by
      rw [firstNonblankLine]
      simp only [hts, hyempty]
      rw [if_neg]
      simp
    simp only [cleanCore]
    rw [hts, hst, hsp, hfnb]
    rw [if_neg]
    · rw [collapseWs_of_collapsed _ hcollapsed_y]
      exact hts
    · simp [hyempty]

theorem cleanColumnName_eq_core (x : String) :
    cleanColumnName x = if x = "" then "" else String.mk (cleanCore x.data) := by
  simp only [cleanColumnName, cleanCore]
  by_cases hx : x = ""
  · rw [if_pos hx, if_pos hx]
  · rw [if_neg hx, if_neg hx]
    by_cases hfl :
        (firstNonblankLine (splitNl (stripTags (trimSpace x.data)))).isEmpty = true
    · rw [if_pos hfl, if_pos hfl]
    · rw [if_neg hfl, if_neg hfl]

/-- C9: `cleanColumnName` is idempotent — applying the header-cleaning pipeline
(strip HTML-like tags, take the first non-blank line, collapse whitespace runs to
single spaces, trim) to an already-cleaned column name returns it unchanged. -/
theorem claim_C9_clean_idempotent (x : String) :
    cleanColumnName (cleanColumnName x) = cleanColumnName x := by
  rw [cleanColumnName_eq_core x, cleanColumnName_eq_core]
  by_cases hx : x = ""
  · rw [if_pos hx, if_pos rfl]
  · rw [if_neg hx]
    by_cases hcc : String.mk (cleanCore x.data) = ""
    · rw [if_pos hcc]
      exact hcc.symm
    · rw [if_neg hcc]
      exact congrArg String.mk (cleanCore_idem x.data)

/-! ## Lemmas towards C5: the persisted-mapping round trip -/

theorem skipWs_cons_ws (c : Char) (l : List Char) (h : jsonWs c = true) :
    skipWs (c :: l) = skipWs l := by
  simp [skipWs, List.dropWhile, h]

theorem skipWs_cons_nws (c : Char) (l : List Char) (h : jsonWs c = false) :
    skipWs (c :: l) = c :: l := by
  simp [skipWs, List.dropWhile, h]

theorem skipWs_append_ws (w l : List Char) (hw : ∀ c ∈ w, jsonWs c = true) :
    skipWs (w ++ l) = skipWs l := by
  induction w with
  | nil => rfl
  | cons c w' ih =>
    rw [List.cons_append, skipWs_cons_ws c _ (hw c (List.mem_cons_self c w'))]
    exact ih (fun d hd => hw d (List.mem_cons_of_mem c hd))

theorem expectC_of_head (c : Char) (w l : List Char)
    (hw : ∀ d ∈ w, jsonWs d = true) (hc : jsonWs c = false) :
    expectC c (w ++ c :: l) = some l := by
  unfold expectC
  rw [skipWs_append_ws w _ hw, skipWs_cons_nws c l hc]
  simp

theorem hexVal_hexDigitL : ∀ k, k < 16 → hexVal? (hexDigitL k) = some k := by decide

theorem hex4_u4 (n : Nat) (h : n < 65536) :
    hex4? (hexDigitL (n / 4096 % 16)) (hexDigitL (n / 256 % 16))
      (hexDigitL (n / 16 % 16)) (hexDigitL (n % 16)) = some n := by
  have h1 := hexVal_hexDigitL (n / 4096 % 16) (by omega)
  have h2 := hexVal_hexDigitL (n / 256 % 16) (by omega)
  have h3 := hexVal_hexDigitL (n / 16 % 16) (by omega)
  have h4 := hexVal_hexDigitL (n % 16) (by omega)
  simp only [hex4?, h1, h2, h3, h4, Option.some.injEq]
  omega

theorem parseUnit_u4esc (n : Nat) (tail : List Char) (hlt : n < 55296) :
    parseUnit (u4esc n ++ tail) = some (some (Char.ofNat n), tail) := by
  rw [u4esc]
  simp only [List.cons_append, List.nil_append]
  rw [parseUnit, if_neg (by decide : ¬(bslashC = quoteC)), if_pos rfl]
  rw [parseBs, parseUEsc, if_pos rfl, parseU4]
  simp only [hex4_u4 n (by omega), if_neg (by omega : ¬(55296 ≤ n ∧ n < 57344))]

theorem parseUnit_escShort (e ch : Char) (tail : List Char)
    (hu : ¬ e = 'u') (h : escChar? e = some ch) :
    parseUnit (bslashC :: e :: tail) = some (some ch, tail) := by
  rw [parseUnit, if_neg (by decide : ¬(bslashC = quoteC)), if_pos rfl]
  rw [parseBs, parseUEsc, if_neg hu]
  simp only [h]

theorem parseUnit_jsonEscapeChar (c : Char) (tail : List Char) :
    parseUnit (jsonEscapeChar c ++ tail) = some (some c, tail) := by
  rw [jsonEscapeChar]
  by_cases hq : c = quoteC
  · subst hq
    rw [if_pos rfl]
    simp only [List.cons_append, List.nil_append]
    exact parseUnit_escShort quoteC quoteC tail (by decide) (by decide)
  · rw [if_neg hq]
    by_cases hb : c = bslashC
    · subst hb
      rw [if_pos rfl]
      simp only [List.cons_append, List.nil_append]
      exact parseUnit_escShort bslashC bslashC tail (by decide) (by decide)
    · rw [if_neg hb]
      by_cases hang : c = Char.ofNat 60 ∨ c = Char.ofNat 62 ∨ c = Char.ofNat 38
      · rw [if_pos hang]
        have hlt : c.toNat < 55296 := by
          rcases hang with h | h | h <;> (subst h; decide)
        rw [parseUnit_u4esc c.toNat tail hlt, Char.ofNat_toNat]
      · rw [if_neg hang]
        by_cases h10 : c = Char.ofNat 10
        · subst h10
          rw [if_pos rfl]
          simp only [List.cons_append, List.nil_append]
          exact parseUnit_escShort _ _ tail (by decide) (by decide)
        · rw [if_neg h10]
          by_cases h13 : c = Char.ofNat 13
          · subst h13
            rw [if_pos rfl]
            simp only [List.cons_append, List.nil_append]
            exact parseUnit_escShort _ _ tail (by decide) (by decide)
          · rw [if_neg h13]
            by_cases h9 : c = Char.ofNat 9
            · subst h9
              rw [if_pos rfl]
              simp only [List.cons_append, List.nil_append]
              exact parseUnit_escShort _ _ tail (by decide) (by decide)
            · rw [if_neg h9]
              by_cases h32 : c.toNat < 32
              · rw [if_pos h32]
                rw [parseUnit_u4esc c.toNat tail (by omega), Char.ofNat_toNat]
              · rw [if_neg h32]
                by_cases h2028 : c.toNat = 8232 ∨ c.toNat = 8233
                · rw [if_pos h2028]
                  have hlt : c.toNat < 55296 := by omega
                  rw [parseUnit_u4esc c.toNat tail hlt, Char.ofNat_toNat]
                · rw [if_neg h2028]
                  simp only [List.cons_append, List.nil_append]
                  rw [parseUnit, if_neg hq, if_neg hb, if_neg h32]

theorem parseStrF_jsonEscape (s : List Char) : ∀ (fuel : Nat) (rest : List Char),
    parseStrF (s.length + 1 + fuel) (jsonEscape s ++ quoteC :: rest) = some (s, rest) := by
  induction s with
  | nil =>
    intro fuel rest
    rw [show ([] : List Char).length + 1 + fuel = fuel + 1 by simp; omega]
    rw [jsonEscape, List.nil_append, parseStrF]
    rw [parseUnit, if_pos rfl]
  | cons c s' ih =>
    intro fuel rest
    rw [show (c :: s').length + 1 + fuel = (s'.length + 1 + fuel) + 1 by simp; omega]
    rw [jsonEscape, List.append_assoc, parseStrF]
    simp only [parseUnit_jsonEscapeChar c, ih fuel rest]

theorem jsonEscapeChar_ne_nil (c : Char) : jsonEscapeChar c ≠ [] := by
  rw [jsonEscapeChar]
  repeat' split
  all_goals simp [u4esc]

theorem jsonEscape_length_ge (s : List Char) : s.length ≤ (jsonEscape s).length := by
  induction s with
  | nil => simp [jsonEscape]
  | cons c s' ih =>
    rw [jsonEscape, List.length_append, List.length_cons]
    have h1 : 1 ≤ (jsonEscapeChar c).length := by
      cases hc : jsonEscapeChar c with
      | nil => exact absurd hc (jsonEscapeChar_ne_nil c)
      | cons a b => simp
    omega

theorem parseJStr_render (s w rest : List Char) (hw : ∀ d ∈ w, jsonWs d = true) :
    parseJStr (w ++ (jsonStr s ++ rest)) = some (s, rest) := by
  have e1 : jsonStr s ++ rest = quoteC :: (jsonEscape s ++ (quoteC :: rest)) := by
    simp [jsonStr]
  rw [parseJStr, e1, expectC_of_head quoteC w _ hw (by decide)]
  have hlen : s.length ≤ (jsonEscape s ++ (quoteC :: rest)).length := by
    rw [List.length_append]
    have := jsonEscape_length_ge s
    omega
  obtain ⟨k, hk⟩ := Nat.le.dest hlen
  simp only [show (jsonEscape s ++ (quoteC :: rest)).length + 1 = s.length + 1 + k from
    by omega, parseStrF_jsonEscape s k rest]

theorem parseJKey_render (name w rest : List Char) (hw : ∀ d ∈ w, jsonWs d = true) :
    parseJKey name (w ++ (jsonStr name ++ rest)) = some rest := by
  have e1 : jsonStr name ++ rest = quoteC :: (jsonEscape name ++ (quoteC :: rest)) := by
    simp [jsonStr]
  rw [parseJKey, e1, expectC_of_head quoteC w _ hw (by decide)]
  have hlen : name.length ≤ (jsonEscape name ++ (quoteC :: rest)).length := by
    rw [List.length_append]
    have := jsonEscape_length_ge name
    omega
  obtain ⟨k, hk⟩ := Nat.le.dest hlen
  simp only [show (jsonEscape name ++ (quoteC :: rest)).length + 1 = name.length + 1 + k from
    by omega, parseStrF_jsonEscape name k rest]
  simp

theorem parseJBool_render (b : Bool) (w rest : List Char)
    (hw : ∀ d ∈ w, jsonWs d = true) :
    parseJBool (w ++ (renderBool b ++ rest)) = some (b, rest) := by
  cases b
  · have hrb : renderBool false = 'f' :: 'a' :: 'l' :: 's' :: 'e' :: [] := rfl
    rw [hrb, parseJBool, skipWs_append_ws w _ hw]
    simp only [List.cons_append, List.nil_append]
    rw [skipWs_cons_nws _ _ (by decide)]
    simp
  · have hrb : renderBool true = 't' :: 'r' :: 'u' :: 'e' :: [] := rfl
    rw [hrb, parseJBool, skipWs_append_ws w _ hw]
    simp only [List.cons_append, List.nil_append]
    rw [skipWs_cons_nws _ _ (by decide)]
    simp

theorem expectC_cons_self (c : Char) (l : List Char) (hc : jsonWs c = false) :
    expectC c (c :: l) = some l := by
  unfold expectC
  rw [skipWs_cons_nws c l hc]
  simp

theorem parseRecord_render (m : ColumnMapping) (w rest : List Char)
    (hw : ∀ d ∈ w, jsonWs d = true) :
    parseRecord (w ++ (renderRecord m ++ rest)) = some (m, rest) := by
  have hW6 : ∀ d ∈ [nlC, ' ', ' ', ' ', ' ', ' ', ' '], jsonWs d = true := by decide
  have hW1 : ∀ d ∈ [' '], jsonWs d = true := by decide
  have e1 : renderRecord m ++ rest =
      lbraceC :: ([nlC, ' ', ' ', ' ', ' ', ' ', ' '] ++
        (jsonStr "scanned_column".data ++
        (':' :: ([' '] ++ (jsonStr m.scanned_column.data ++
        (',' :: ([nlC, ' ', ' ', ' ', ' ', ' ', ' '] ++
        (jsonStr "target_column".data ++
        (':' :: ([' '] ++ (jsonStr m.target_column.data ++
        (',' :: ([nlC, ' ', ' ', ' ', ' ', ' ', ' '] ++
        (jsonStr "is_ignored".data ++
        (':' :: ([' '] ++ (renderBool m.is_ignored ++
        ([nlC, ' ', ' ', ' ', ' '] ++ (rbraceC :: rest))))))))))))))))))) := by
    simp [renderRecord, ind4, ind6, List.append_assoc]
  rw [parseRecord, e1]
  simp only [expectC_of_head lbraceC w _ hw (by decide),
    parseJKey_render "scanned_column".data [nlC, ' ', ' ', ' ', ' ', ' ', ' '] _ hW6,
    parseJKey_render "target_column".data [nlC, ' ', ' ', ' ', ' ', ' ', ' '] _ hW6,
    parseJKey_render "is_ignored".data [nlC, ' ', ' ', ' ', ' ', ' ', ' '] _ hW6,
    expectC_cons_self ':' _ (by decide),
    expectC_cons_self ',' _ (by decide),
    parseJStr_render m.scanned_column.data [' '] _ hW1,
    parseJStr_render m.target_column.data [' '] _ hW1,
    parseJBool_render m.is_ignored [' '] _ hW1,
    expectC_of_head rbraceC [nlC, ' ', ' ', ' ', ' '] _ (by decide) (by decide)]

theorem parseRecordsAux_render (ms : List ColumnMapping) : ms ≠ [] →
    ∀ (fuel : Nat) (w tail : List Char), (∀ d ∈ w, jsonWs d = true) →
    parseRecordsAux (ms.length + fuel)
      (w ++ (renderRecords ms ++ ([nlC, ' ', ' '] ++ (']' :: tail)))) =
      some (ms, tail) := by
  induction ms with
  | nil => intro h; exact absurd rfl h
  | cons m ms' ih =>
    intro _ fuel w tail hw
    cases ms' with
    | nil =>
      rw [show (([m] : List ColumnMapping).length + fuel) = fuel + 1 by
        simp only [List.length_cons, List.length_nil]; omega]
      rw [parseRecordsAux]
      rw [show renderRecords [m] = renderRecord m from rfl]
      simp only [parseRecord_render m w _ hw]
      rw [skipWs_append_ws [nlC, ' ', ' '] _ (by decide)]
      rw [skipWs_cons_nws ']' tail (by decide)]
      simp
    | cons m2 ms'' =>
      rw [show ((m :: m2 :: ms'').length + fuel) = ((m2 :: ms'').length + fuel) + 1 by
        simp only [List.length_cons]; omega]
      rw [parseRecordsAux]
      have e2 : renderRecords (m :: m2 :: ms'') ++ ([nlC, ' ', ' '] ++ (']' :: tail)) =
          renderRecord m ++ (',' :: ([nlC, ' ', ' ', ' ', ' '] ++
            (renderRecords (m2 :: ms'') ++ ([nlC, ' ', ' '] ++ (']' :: tail))))) := by
        rw [show renderRecords (m :: m2 :: ms'') =
          renderRecord m ++ [',', nlC] ++ ind4 ++ renderRecords (m2 :: ms'') from rfl]
        simp [ind4, List.append_assoc]
      rw [show w ++ (renderRecords (m :: m2 :: ms'') ++ ([nlC, ' ', ' '] ++ (']' :: tail)))
          = w ++ (renderRecord m ++ (',' :: ([nlC, ' ', ' ', ' ', ' '] ++
            (renderRecords (m2 :: ms'') ++ ([nlC, ' ', ' '] ++ (']' :: tail)))))) by
        rw [e2]]
      simp only [parseRecord_render m w _ hw]
      rw [skipWs_cons_nws ',' _ (by decide)]
      simp only [ih (by simp) fuel [nlC, ' ', ' ', ' ', ' '] tail (by decide)]
      simp

theorem renderRecord_head (m : ColumnMapping) : ∃ t, renderRecord m = lbraceC :: t := by
  rw [renderRecord]
  exact ⟨_, rfl⟩

theorem renderRecord_length_ge_two (m : ColumnMapping) : 2 ≤ (renderRecord m).length := by
  rw [renderRecord]
  simp [List.length_append]

theorem renderRecords_length_ge (ms : List ColumnMapping) :
    ms.length ≤ (renderRecords ms).length := by
  induction ms with
  | nil => simp [renderRecords]
  | cons m ms' ih =>
    cases ms' with
    | nil =>
      rw [show renderRecords [m] = renderRecord m from rfl]
      have := renderRecord_length_ge_two m
      simp only [List.length_cons, List.length_nil]
      omega
    | cons m2 ms'' =>
      rw [show renderRecords (m :: m2 :: ms'') =
        renderRecord m ++ [',', nlC] ++ ind4 ++ renderRecords (m2 :: ms'') from rfl]
      have h1 := renderRecord_length_ge_two m
      simp only [List.length_cons, List.length_append] at ih ⊢
      simp [ind4]
      omega

theorem renderRecords_cons_head (m : ColumnMapping) (ms' : List ColumnMapping) :
    ∃ t, renderRecords (m :: ms') = lbraceC :: t := by
  obtain ⟨t0, ht0⟩ := renderRecord_head m
  cases ms' with
  | nil => exact ⟨t0, by rw [show renderRecords [m] = renderRecord m from rfl, ht0]⟩
  | cons m2 ms'' =>
    refine ⟨t0 ++ ([',', nlC] ++ ind4 ++ renderRecords (m2 :: ms'')), ?_⟩
    rw [show renderRecords (m :: m2 :: ms'') =
      renderRecord m ++ [',', nlC] ++ ind4 ++ renderRecords (m2 :: ms'') from rfl, ht0]
    simp [List.append_assoc]

theorem loadMappingString_save_nil :
    loadMappingString (saveMappingString ⟨[]⟩) = some (⟨[]⟩ : MappingConfig) := by
  have e0 : saveMappingString ⟨[]⟩ =
      [] ++ (lbraceC :: ([nlC, ' ', ' '] ++ (jsonStr "mappings".data ++
        (':' :: (' ' :: ('n' :: 'u' :: 'l' :: 'l' ::
        ([nlC] ++ (rbraceC :: []))))))) ) := by
    rw [saveMappingString]
    simp [ind2, List.append_assoc]
  rw [e0, loadMappingString]
  simp only [expectC_of_head lbraceC [] _ (by decide) (by decide),
    parseJKey_render "mappings".data [nlC, ' ', ' '] _ (by decide),
    expectC_cons_self ':' _ (by decide)]
  rw [skipWs_cons_ws ' ' _ (by decide), skipWs_cons_nws 'n' _ (by decide)]
  simp only [expectC_of_head rbraceC [nlC] [] (by decide) (by decide)]
  simp [skipWs]

theorem loadMappingString_save_cons (m : ColumnMapping) (ms' : List ColumnMapping) :
    loadMappingString (saveMappingString ⟨m :: ms'⟩) = some (⟨m :: ms'⟩ : MappingConfig) := by
  have e1 : saveMappingString ⟨m :: ms'⟩ =
      [] ++ (lbraceC :: ([nlC, ' ', ' '] ++ (jsonStr "mappings".data ++
        (':' :: (' ' :: ('[' :: ([nlC, ' ', ' ', ' ', ' '] ++
        (renderRecords (m :: ms') ++ ([nlC, ' ', ' '] ++
        (']' :: ([nlC] ++ (rbraceC :: [])))))))))))) := by
    rw [saveMappingString]
    rw [if_neg (by simp)]
    simp [ind2, ind4, List.append_assoc]
  rw [e1, loadMappingString]
  simp only [expectC_of_head lbraceC [] _ (by decide) (by decide),
    parseJKey_render "mappings".data [nlC, ' ', ' '] _ (by decide),
    expectC_cons_self ':' _ (by decide)]
  rw [skipWs_cons_ws ' ' _ (by decide), skipWs_cons_nws '[' _ (by decide)]
  obtain ⟨t0, ht0⟩ := renderRecords_cons_head m ms'
  have hskip : skipWs ([nlC, ' ', ' ', ' ', ' '] ++
      (renderRecords (m :: ms') ++ ([nlC, ' ', ' '] ++
        (']' :: ([nlC] ++ (rbraceC :: [])))))) =
      lbraceC :: (t0 ++ ([nlC, ' ', ' '] ++ (']' :: ([nlC] ++ (rbraceC :: []))))) := by
    rw [skipWs_append_ws _ _ (by decide), ht0, List.cons_append]
    exact skipWs_cons_nws _ _ (by decide)
  have hlen : (m :: ms').length ≤
      ([] ++ (lbraceC :: ([nlC, ' ', ' '] ++ (jsonStr "mappings".data ++
        (':' :: (' ' :: ('[' :: ([nlC, ' ', ' ', ' ', ' '] ++
        (renderRecords (m :: ms') ++ ([nlC, ' ', ' '] ++
        (']' :: ([nlC] ++ (rbraceC :: [])))))))))))) : List Char).length := by
    have hr := renderRecords_length_ge (m :: ms')
    simp only [List.length_cons] at hr
    have hjs : (jsonStr ['m', 'a', 'p', 'p', 'i', 'n', 'g', 's']).length = 10 := by decide
    simp only [List.length_append, List.length_cons, List.nil_append, List.length_nil]
    omega
  obtain ⟨k, hk⟩ := Nat.le.dest hlen
  simp only [hskip, if_neg (by decide : ¬(lbraceC = ']')), ← hk]
  simp only [parseRecordsAux_render (m :: ms') (by simp) k [nlC, ' ', ' ', ' ', ' ']
    ([nlC] ++ (rbraceC :: [])) (by decide)]
  simp only [expectC_of_head rbraceC [nlC] [] (by decide) (by decide)]
  simp [skipWs]

theorem loadMappingString_save (mc : MappingConfig) :
    loadMappingString (saveMappingString mc) = some mc := by
  cases mc with
  | mk ms =>
    cases ms with
    | nil => exact loadMappingString_save_nil
    | cons m ms' => exact loadMappingString_save_cons m ms'

/-- C5: the mapping-configuration persistence round-trips losslessly.  For
every `MappingConfig`, parsing the exact `MarshalIndent` output back yields a
config in which every field of every record and the record order are
unchanged; consequently a persisted mapping file (the output of Save) is
reproduced byte-identically by a further Save-of-Load. -/
theorem claim_C5_save_load_roundtrip (mc : MappingConfig) :
    loadMappingString (saveMappingString mc) = some mc ∧
    Option.map saveMappingString (loadMappingString (saveMappingString mc)) =
      some (saveMappingString mc) := by
  refine ⟨loadMappingString_save mc, ?_⟩
  rw [loadMappingString_save mc]
  rfl

end SheetFmt
